import Mathlib

/-!
# Verification of the point-cluster hierarchy (src/index.ts, src/types.ts)

Shallow embedding of `PointClusterImpl`.  Modelling conventions:

* Coordinates, radii and centroids are exact rationals (`ℚ`).  The
  single-precision rounding (`fround`) applied on load and the `Float32Array`
  storage are not modelled; all claims under study are about structure and
  counting, not about rounding.
* The flat stride-6 numeric records (`OFFSET_ZOOM` .. `OFFSET_NUM`) are
  modelled as a `Rec` structure, one per record, and each per-zoom
  `Float32Array` as a `List Rec`.  The optional seventh `OFFSET_PROP` slot
  and the `map`/`reduce` property-aggregation machinery are not modelled:
  no claim exercises them, and without `reduce` the source uses stride 6.
* The external KD-tree (`KDBush`) is modelled by the record list itself:
  `tree.within` / `tree.range` become `withinIdx` / `rangeIdx`, returning
  matching indices (KDBush uses inclusive comparisons; the order in which
  it reports indices is its own; the model reports them in index order).
  Coordinates are never mutated during a pass, so querying the current
  record list is the same as querying the build-time snapshot.
* `data[i + OFFSET_ZOOM]` holds `Infinity` until a record is processed;
  this is an `Option ℕ` mark with `none` for the `Infinity` sentinel.
* JS exceptions (`throw new Error(...)`) are modelled by `Option`-valued
  results (`none` = the call throws).
* JS `x >> 5` on the id arithmetic is floor division (`Int.fdiv · 32`) and
  JS `x % 32` is truncated remainder (`Int.tmod · 32`).
* JS number arguments that the claims exercise are modelled as integers
  (`ℤ`) or as `LimArg` (which includes the `Infinity` and `undefined`
  values `getLeaves` accepts).
-/

namespace PointCluster

/-- Recognized options (src/types.ts `Options`, defaults in src/index.ts).
`nodeSize` and `log` are performance/logging-only and not modelled;
`map`/`reduce` are not modelled (see module docstring). -/
structure Opts where
  minZoom : ℕ
  maxZoom : ℕ
  minPoints : ℕ
  radius : ℚ
deriving Repr, DecidableEq

/-- The `defaultOptions` object of `PointClusterImpl`. -/
def defaultOpts : Opts := ⟨1, 16, 2, 40⟩

/-- One stride-6 record of the flat per-zoom arrays:
projected x, projected y, last-processed zoom (`OFFSET_ZOOM`, `none` =
`Infinity`), source index or cluster id (`OFFSET_ID`), parent cluster id
(`OFFSET_PARENT`, `-1` = none), point count (`OFFSET_NUM`). -/
structure Rec where
  x : ℚ
  y : ℚ
  mark : Option ℕ
  rid : ℕ
  parent : ℤ
  num : ℕ
deriving Repr, DecidableEq

instance : Inhabited Rec := ⟨⟨0, 0, none, 0, -1, 1⟩⟩

/-- Read a record (JS reads of `data[k*stride + ...]`). -/
def getL (d : List Rec) (i : ℕ) : Rec := d.getD i default

/-- Write a record in place (JS writes to `data[k*stride + ...]`). -/
def setL : List Rec → ℕ → Rec → List Rec
  | [], _, _ => []
  | _ :: t, 0, v => v :: t
  | h :: t, n + 1, v => h :: setL t n v

/-- `markLe m z` models `data[k + OFFSET_ZOOM] <= zoom`
(`none`, i.e. `Infinity`, compares greater than every zoom). -/
def markLe : Option ℕ → ℕ → Bool
  | none, _ => false
  | some m, z => m ≤ z

/-- Squared euclidean distance, as used by `KDBush.within`. -/
def sqDist (x1 y1 x2 y2 : ℚ) : ℚ := (x1 - x2) * (x1 - x2) + (y1 - y2) * (y1 - y2)

/-- Model of `tree.within(x, y, r)`: indices of all records within distance
`r` of `(x, y)` (inclusive, by squared distance). -/
def withinIdx (d : List Rec) (x y r : ℚ) : List ℕ :=
  (List.range d.length).filter fun j =>
    decide (sqDist (getL d j).x (getL d j).y x y ≤ r * r)

/-- Model of `tree.range(minX, minY, maxX, maxY)` (inclusive bounds). -/
def rangeIdx (d : List Rec) (minX minY maxX maxY : ℚ) : List ℕ :=
  (List.range d.length).filter fun j =>
    decide (minX ≤ (getL d j).x) && decide ((getL d j).x ≤ maxX) &&
    decide (minY ≤ (getL d j).y) && decide ((getL d j).y ≤ maxY)

/-- The cluster id allocated in `_cluster`:
`(((i / stride) | 0) << 5) + (zoom + 1) + this.points.length`. -/
def encodeId (i zoom N : ℕ) : ℕ := 32 * i + (zoom + 1) + N

/-- `_getOriginId`: `(clusterId - this.points.length) >> 5`. -/
def getOriginId (N : ℕ) (cid : ℤ) : ℤ := Int.fdiv (cid - N) 32

/-- `_getOriginZoom`: `(clusterId - this.points.length) % 32`. -/
def getOriginZoom (N : ℕ) (cid : ℤ) : ℤ := Int.tmod (cid - N) 32

/-- `numPoints` accumulation of `_cluster`: add the counts of all
neighbours not yet processed at this zoom. -/
def countNbrs (d : List Rec) (zoom : ℕ) (nbrs : List ℕ) : ℕ :=
  nbrs.foldl (fun acc k => if markLe (getL d k).mark zoom then acc else acc + (getL d k).num) 0

/-- The absorb loop of `_cluster`'s merge branch: mark each still-unprocessed
neighbour, set its parent to the new cluster id, and accumulate the
weighted centroid sums `wx`, `wy`. -/
def absorb (zoom : ℕ) (cid : ℕ) (st : List Rec × ℚ × ℚ) (nbrs : List ℕ) :
    List Rec × ℚ × ℚ :=
  nbrs.foldl
    (fun st k =>
      let d := st.1
      let rk := getL d k
      if markLe rk.mark zoom then st
      else
        (setL d k { rk with mark := some zoom, parent := (cid : ℤ) },
         st.2.1 + rk.x * rk.num, st.2.2 + rk.y * rk.num))
    st

/-- The no-merge branch's neighbour loop: mark each still-unprocessed
neighbour and copy it forward unchanged into `nextData`. -/
def copyFwd (zoom : ℕ) (st : List Rec × List Rec) (nbrs : List ℕ) :
    List Rec × List Rec :=
  nbrs.foldl
    (fun st k =>
      let d := st.1
      let rk := getL d k
      if markLe rk.mark zoom then st
      else
        let d2 := setL d k { rk with mark := some zoom }
        (d2, st.2 ++ [getL d2 k]))
    st

/-- The body of `_cluster`'s main loop for one record index `i`
(state: the mutated level array and the accumulated `nextData`). -/
def processIdx (o : Opts) (zoom N : ℕ) (r : ℚ) (st : List Rec × List Rec) (i : ℕ) :
    List Rec × List Rec :=
  let d := st.1
  let next := st.2
  let ri := getL d i
  if markLe ri.mark zoom then st
  else
    let d := setL d i { ri with mark := some zoom }
    let nbrs := withinIdx d ri.x ri.y r
    let numOrigin := ri.num
    let numPoints := numOrigin + countNbrs d zoom nbrs
    if numOrigin < numPoints ∧ o.minPoints ≤ numPoints then
      let cid := encodeId i zoom N
      let a := absorb zoom cid (d, ri.x * numOrigin, ri.y * numOrigin) nbrs
      let d := setL a.1 i { getL a.1 i with parent := (cid : ℤ) }
      (d, next ++ [⟨a.2.1 / numPoints, a.2.2 / numPoints, none, cid, -1, numPoints⟩])
    else
      let next := next ++ [getL d i]
      if 1 < numPoints then copyFwd zoom (d, next) nbrs
      else (d, next)

/-- The effective search radius of a `_cluster` pass: `const r = radius / zoom`
(src/index.ts line 195).  No scaling function is consulted: the `Options`
interface of src/types.ts has no `scalingFunction` member. -/
def buildRadius (o : Opts) (zoom : ℕ) : ℚ := o.radius / (zoom : ℚ)

/-- `_cluster(tree, zoom)`: one greedy merge pass.  Returns the mutated
input level (marks/parents written through the shared buffer) and the
new `nextData` level. -/
def clusterPass (o : Opts) (zoom N : ℕ) (data : List Rec) : List Rec × List Rec :=
  (List.range data.length).foldl (processIdx o zoom N (buildRadius o zoom)) (data, [])

/-- The loop of `load` that builds one stride-6 record per input point
(`i` is the running source index). -/
def initialRecsAux (i : ℕ) : List (ℚ × ℚ) → List Rec
  | [] => []
  | p :: t => ⟨p.1, p.2, none, i, -1, 1⟩ :: initialRecsAux (i + 1) t

/-- The initial stride-6 records built in `load` (one per input point,
count 1, no parent, `Infinity` zoom mark). -/
def initialRecs (pts : List (ℚ × ℚ)) : List Rec :=
  initialRecsAux 0 pts

/-- The zoom loop of `load`: run `_cluster` for each zoom in `zs` (given in
descending order `maxZoom, ..., minZoom`); each pass's mutated input is
stored at `topKey` (initially `maxZoom + 1`) and its output becomes the
next level down. -/
def buildLevels (o : Opts) (N : ℕ) : List ℕ → List Rec → ℕ → List (ℕ × List Rec)
  | [], cur, topKey => [(topKey, cur)]
  | z :: rest, cur, topKey =>
    let pr := clusterPass o z N cur
    (topKey, pr.1) :: buildLevels o N rest pr.2 z

/-- The descending zoom list `maxZoom, maxZoom - 1, ..., minZoom` of the
`load` loop (empty when `minZoom > maxZoom`). -/
def zoomList (o : Opts) : List ℕ :=
  (List.range' o.minZoom (o.maxZoom + 1 - o.minZoom)).reverse

/-- Instance state: options, loaded points (coordinates only; their opaque
properties play no role in any claim) and the per-zoom levels
(`this.trees`, each tree standing for its record array). -/
structure PC where
  o : Opts
  points : List (ℚ × ℚ)
  levels : List (ℕ × List Rec)
deriving Repr, DecidableEq

/-- The constructor: stores the options and allocates empty state.  It
performs no validation of any kind. -/
def construct (o : Opts) : PC := ⟨o, [], []⟩

/-- `load(points)`: (re)build every level from scratch. -/
def load (pc : PC) (pts : List (ℚ × ℚ)) : PC :=
  { pc with
    points := pts
    levels := buildLevels pc.o pts.length (zoomList pc.o) (initialRecs pts) (pc.o.maxZoom + 1) }

/-- `this.trees[z]` (`none` = no tree stored at that index). -/
def lookupLevel (pc : PC) (z : ℕ) : Option (List Rec) :=
  (pc.levels.find? fun zw => zw.1 == z).map fun zw => zw.2

/-- `_limitZoom(z)`: `max(minZoom, min(floor(z), maxZoom + 1))`. -/
def limitZoom (o : Opts) (z : ℤ) : ℕ :=
  (max (o.minZoom : ℤ) (min z ((o.maxZoom : ℤ) + 1))).toNat

/-- A query result: either an original input point (identified by its index
into `points`, standing for `this.points[data[k + OFFSET_ID]]`) or the
cluster projection of `_getClusterJSON` (id, centroid, point count). -/
inductive Entry where
  | point (srcIdx : ℕ)
  | cluster (cid : ℕ) (x : ℚ) (y : ℚ) (count : ℕ)
deriving Repr, DecidableEq

/-- Project a record as `getClusters`/`getChildren` do:
a cluster JSON when `point_count > 1`, else the original point. -/
def entryOf (r : Rec) : Entry :=
  if 1 < r.num then .cluster r.rid r.x r.y r.num else .point r.rid

/-- `point_count` of a result (an original point counts 1). -/
def entryCount : Entry → ℕ
  | .point _ => 1
  | .cluster _ _ _ n => n

/-- `getClusters(bbox, zoom)` (`none` = no tree at the clamped zoom, i.e.
the instance was never loaded or the zoom range is degenerate). -/
def getClusters (pc : PC) (minX minY maxX maxY : ℚ) (zoom : ℤ) : Option (List Entry) :=
  (lookupLevel pc (limitZoom pc.o zoom)).map fun d =>
    (rangeIdx d minX minY maxX maxY).map fun j => entryOf (getL d j)

/-- `getChildren(clusterId)` (`none` = throws "No cluster with the
specified id.").  A negative decoded anchor index escapes the source's
bounds check, but its coordinate reads yield `undefined`, so the
neighbour query returns no candidates and the empty-children throw fires. -/
def getChildren (pc : PC) (cid : ℤ) : Option (List Entry) :=
  let N := pc.points.length
  let oid := getOriginId N cid
  let oz := getOriginZoom N cid
  match (if oz < 0 then none else lookupLevel pc oz.toNat) with
  | none => none
  | some d =>
    if (d.length : ℤ) ≤ oid then none
    else
      let r := pc.o.radius / ((oz : ℚ) - 1)
      let ids := if oid < 0 then []
        else withinIdx d (getL d oid.toNat).x (getL d oid.toNat).y r
      let kids := ids.filter fun k => (getL d k).parent == cid
      if kids.isEmpty then none else some (kids.map fun k => entryOf (getL d k))

/-- The `limit` argument of `getLeaves`: a JS number or the absent
(`undefined`) argument; `Infinity` is an admissible number here. -/
inductive LimArg where
  | undef
  | num (n : ℤ)
  | inf
deriving Repr, DecidableEq

/-- `limit = limit || 10`: `undefined` and `0` are falsy and fall back
to the default 10. -/
def normLimit : LimArg → LimArg
  | .undef => .num 10
  | .num n => if n = 0 then .num 10 else .num n
  | .inf => .inf

/-- `offset = offset || 0` (the claims only exercise finite offsets, so the
argument is an optional integer). -/
def normOffset : Option ℤ → ℤ
  | none => 0
  | some n => n

/-- `result.length === limit` (never true against `Infinity`). -/
def atLimit (len : ℕ) : LimArg → Bool
  | .num n => (len : ℤ) == n
  | _ => false

/-- The `for (const child of children)` loop of `_appendLeaves`, with the
running `skipped` counter and the early `break` once the limit is hit.
`recurse` is the recursive `_appendLeaves` call for cluster children. -/
def childLoop (limit : LimArg) (off : ℤ)
    (recurse : ℤ → List ℕ → ℤ → Option (List ℕ × ℤ)) :
    List Entry → List ℕ → ℤ → Option (List ℕ × ℤ)
  | [], acc, skipped => some (acc, skipped)
  | e :: rest, acc, skipped =>
    match e with
    | .cluster ccid _ _ cnt =>
      if skipped + (cnt : ℤ) ≤ off then
        if atLimit acc.length limit then some (acc, skipped + cnt)
        else childLoop limit off recurse rest acc (skipped + cnt)
      else
        match recurse (ccid : ℤ) acc skipped with
        | none => none
        | some st =>
          if atLimit st.1.length limit then some st
          else childLoop limit off recurse rest st.1 st.2
    | .point idx =>
      if skipped < off then
        if atLimit acc.length limit then some (acc, skipped + 1)
        else childLoop limit off recurse rest acc (skipped + 1)
      else
        if atLimit (acc ++ [idx]).length limit then some (acc ++ [idx], skipped)
        else childLoop limit off recurse rest (acc ++ [idx]) skipped

/-- `_appendLeaves(result, clusterId, limit, offset, skipped)`.  The fuel
argument models the recursion stack: each nested cluster level consumes
one unit, and in a built hierarchy the depth is bounded by the zoom range. -/
def appendLeaves (pc : PC) (limit : LimArg) (off : ℤ) :
    ℕ → ℤ → List ℕ → ℤ → Option (List ℕ × ℤ)
  | 0, _, _, _ => none
  | fuel + 1, cid, acc, skipped =>
    match getChildren pc cid with
    | none => none
    | some children => childLoop limit off (appendLeaves pc limit off fuel) children acc skipped

/-- `getLeaves(clusterId, limit, offset)`; the result lists the returned
original points by their index into `points`. -/
def getLeaves (pc : PC) (cid : ℤ) (limit : LimArg) (off : Option ℤ) : Option (List ℕ) :=
  (appendLeaves pc (normLimit limit) (normOffset off) (pc.o.maxZoom + 2) cid [] 0).map
    fun st => st.1

/-- The `while (expansionZoom <= maxZoom)` loop of
`getClusterExpansionZoom`; `fuel` is the exact remaining iteration count
`maxZoom + 1 - expansionZoom`.  When the single child of a cluster is an
original point its properties carry no `cluster_id` (JS `undefined`), so
the follow-up `getChildren` of a further iteration throws; if the loop
exits instead, the current candidate zoom is returned. -/
def expandLoop (pc : PC) : ℕ → ℤ → ℤ → Option ℤ
  | 0, _, ez => some ez
  | fuel + 1, cid, ez =>
    match getChildren pc cid with
    | none => none
    | some children =>
      if children.length ≠ 1 then some (ez + 1)
      else
        match children with
        | [Entry.cluster c _ _ _] => expandLoop pc fuel (c : ℤ) (ez + 1)
        | _ => if fuel = 0 then some (ez + 1) else none

/-- `getClusterExpansionZoom(clusterId)`. -/
def getClusterExpansionZoom (pc : PC) (cid : ℤ) : Option ℤ :=
  let ez := getOriginZoom pc.points.length cid - 1
  expandLoop pc (((pc.o.maxZoom : ℤ) + 1 - ez).toNat) cid ez

/-- The expansion loop's descent relation: `stepsTo pc cid c n` says that
starting from cluster id `cid`, `n` loop iterations each found exactly one
child, a cluster, and replaced the current id by that child's id
(`clusterId = children[0].properties.cluster_id`), arriving at `c`.  Each
step advances the candidate zoom by one, so after `n` steps `c` is the
cluster the loop is examining at candidate zoom `originZoom + n`. -/
def stepsTo (pc : PC) : ℤ → ℤ → ℕ → Prop
  | cid, c, 0 => c = cid
  | cid, c, n + 1 => ∃ c1 x y cnt,
      getChildren pc cid = some [Entry.cluster c1 x y cnt] ∧ stepsTo pc (c1 : ℤ) c n

/-! ## Spec-side definitions and a small worked instance -/

/-- Modelled from the spec: the README documents a configurable
`scalingFunction: zoom -> factor` with effective search radius
`r = radius × scalingFunction(zoom)` (default `1/zoom`).  This definition
follows the spec's words; the source has no corresponding option (the
`Options` interface of src/types.ts lacks the field and `_cluster`
computes `radius / zoom` unconditionally). -/
def scaledRadiusSpec (radius : ℚ) (scaling : ℕ → ℚ) (zoom : ℕ) : ℚ :=
  radius * scaling zoom

/-- A small concrete configuration (radius 40, minPoints 2, zoom range 1..4),
used by the witnesses below. -/
def exOpts : Opts := ⟨1, 4, 2, 40⟩

/-- Three concrete points: two mergeable neighbours and one far outlier. -/
def exPts : List (ℚ × ℚ) := [(0, 0), (1, 1), (100, 100)]

/-- The worked instance.  Its hierarchy contains the single cluster id
`8 = encodeId 0 4 3` (anchored at record 0 of level 5, emitted by the
zoom-4 pass) with children `[point 0, point 1]`. -/
def exPC : PC := load (construct exOpts) exPts

/-- Level 4 of the worked instance, as stored after the zoom-3 pass
mutated its marks (`8 = encodeId 0 4 3` is the merged cluster). -/
def exLevel4 : List Rec :=
  [⟨1/2, 1/2, some 3, 8, -1, 2⟩, ⟨100, 100, some 3, 2, -1, 1⟩]

/-- Level 5 of the worked instance (the initial records, as stored after
the zoom-4 pass mutated their marks and parents: records 0 and 1 were
absorbed into cluster 8). -/
def exLevel5 : List Rec :=
  [⟨0, 0, some 4, 0, 8, 1⟩, ⟨1, 1, some 4, 1, 8, 1⟩, ⟨100, 100, some 4, 2, -1, 1⟩]

/-! ## Invariant vocabulary for the hierarchy proofs -/

/-- A record already processed at `zoom` (`data[k + OFFSET_ZOOM] <= zoom`). -/
def Done (zoom : ℕ) (d : List Rec) (k : ℕ) : Bool := markLe (getL d k).mark zoom

/-- Pass precondition: no record processed at this zoom yet, no parents set. -/
def Fresh (zoom : ℕ) (d : List Rec) : Prop :=
  ∀ k, Done zoom d k = false ∧ (getL d k).parent = -1

/-- A record with its zoom mark set to `zoom`. -/
def markedRec (zoom : ℕ) (r : Rec) : Rec := { r with mark := some zoom }

/-- Two levels agreeing in length and in every record's immutable fields
(coordinates, identity, count) — a pass only touches marks and parents. -/
def SameShape (d1 d2 : List Rec) : Prop :=
  d1.length = d2.length ∧
  ∀ k, (getL d2 k).x = (getL d1 k).x ∧ (getL d2 k).y = (getL d1 k).y ∧
    (getL d2 k).rid = (getL d1 k).rid ∧ (getL d2 k).num = (getL d1 k).num

/-- Total point count stored in a level. -/
def sumNum (d : List Rec) : ℕ := (d.map Rec.num).sum

/-- Indices of a level whose parent slot equals `cid`. -/
def childSet (d : List Rec) (cid : ℕ) : Finset ℕ :=
  (((List.range d.length).filter fun k => (getL d k).parent == (cid : ℤ))).toFinset

/-- Union of a family over an index list. -/
def listUnionBy (l : List ℕ) (f : ℕ → Finset ℕ) : Finset ℕ :=
  l.foldr (fun k acc => f k ∪ acc) ∅

/-- Union of a list of sets. -/
def listUnion (l : List (Finset ℕ)) : Finset ℕ := l.foldr (· ∪ ·) ∅

/-- Provenance of a `nextData` record: carried forward unchanged (except for
its fresh zoom mark) from one still-unprocessed source record. -/
def CopySrc (data0 : List Rec) (zoom : ℕ) (rec : Rec) (s : Finset ℕ) : Prop :=
  ∃ k, k < data0.length ∧ s = {k} ∧ rec = markedRec zoom (getL data0 k)

/-- Provenance of a `nextData` record: a cluster emitted by the merge
branch, anchored at `a`, absorbing exactly the source records `s` (which
are, in the mutated level `d`, exactly the records whose parent is the
new id), with count and weighted centroid accumulated over `s`. -/
def EmitSrc (o : Opts) (data0 d : List Rec) (zoom N : ℕ) (rec : Rec) (s : Finset ℕ) : Prop :=
  ∃ a, a < data0.length ∧
    rec.rid = encodeId a zoom N ∧ rec.mark = none ∧ rec.parent = -1 ∧
    s = childSet d rec.rid ∧ a ∈ s ∧ 2 ≤ s.card ∧
    (∀ k ∈ s, k ∈ withinIdx data0 (getL data0 a).x (getL data0 a).y (buildRadius o zoom)) ∧
    rec.num = ∑ k in s, (getL data0 k).num ∧
    rec.x * (rec.num : ℚ) = ∑ k in s, (getL data0 k).x * ((getL data0 k).num : ℚ) ∧
    rec.y * (rec.num : ℚ) = ∑ k in s, (getL data0 k).y * ((getL data0 k).num : ℚ)

/-- Provenance of a `nextData` record (either branch). -/
def RecSrc (o : Opts) (data0 d : List Rec) (zoom N : ℕ) (rec : Rec) (s : Finset ℕ) : Prop :=
  CopySrc data0 zoom rec s ∨ EmitSrc o data0 d zoom N rec s

/-- The source accounting of a (partial or complete) pass: every `nextData`
record has a provenance set, the sets are pairwise disjoint, together
they cover exactly the processed records, and every parent slot written
in `d` points to the emitted record whose set contains it. -/
structure SrcsOK (o : Opts) (zoom N : ℕ) (data0 d next : List Rec)
    (srcs : List (Finset ℕ)) : Prop where
  hlen : srcs.length = next.length
  hrec : ∀ p, p < next.length → RecSrc o data0 d zoom N (getL next p) (srcs.getD p ∅)
  hdisj : srcs.Pairwise Disjoint
  hcover : ∀ k, k ∈ listUnion srcs ↔ (k < data0.length ∧ Done zoom d k = true)
  hpar : ∀ k, k < data0.length →
    (getL d k).parent = -1 ∨
    ∃ p, p < next.length ∧ (getL next p).mark = none ∧
      (getL d k).parent = ((getL next p).rid : ℤ) ∧ k ∈ srcs.getD p ∅

/-- Loop invariant of `_cluster`'s main scan after the first `bound`
indices have been visited. -/
structure PassInv (o : Opts) (zoom N : ℕ) (data0 : List Rec) (bound : ℕ)
    (st : List Rec × List Rec) : Prop where
  hshape : SameShape data0 st.1
  hmark : ∀ k, (getL st.1 k).mark = (getL data0 k).mark ∨ (getL st.1 k).mark = some zoom
  hdone : ∀ k, k < bound → Done zoom st.1 k = true
  hsrc : ∃ srcs, SrcsOK o zoom N data0 st.1 st.2 srcs

/-- The in-place mutation performed by the absorb loop on the absorbed
indices. -/
def paintAbsorb (zoom cid : ℕ) (d : List Rec) (ks : List ℕ) : List Rec :=
  ks.foldl (fun d k => setL d k { getL d k with mark := some zoom, parent := (cid : ℤ) }) d

/-- The in-place mutation performed by the copy-forward loop. -/
def paintCopy (zoom : ℕ) (d : List Rec) (ks : List ℕ) : List Rec :=
  ks.foldl (fun d k => setL d k { getL d k with mark := some zoom }) d

/-- `topKey`-freshness of a level as produced by a pass at `topKey`:
marks are `Infinity` (emitted clusters) or `topKey` (copies), parents
unset — exactly the precondition of the next pass down. -/
def NewLevel (topKey : ℕ) (d : List Rec) : Prop :=
  ∀ k, ((getL d k).mark = none ∨ (getL d k).mark = some topKey) ∧ (getL d k).parent = -1

/-- The child indices of a cluster `cid` anchored at record `a` of
level `d` (the level at the cluster's origin zoom `oz`), as `getChildren`
computes them: neighbours of the anchor within `radius / (oz - 1)` whose
parent slot equals `cid`. -/
def kidsOf (radius : ℚ) (cid a oz : ℕ) (d : List Rec) : List ℕ :=
  (withinIdx d (getL d a).x (getL d a).y (radius / ((oz : ℚ) - 1))).filter
    fun k => (getL d k).parent == (cid : ℤ)

/-- Well-formedness of a record stored at level `z` of a built hierarchy,
together with the set of original point indices it owns.  A leaf owns its
source index.  A cluster record's id decodes to an anchor `a` and origin
zoom `oz` strictly above `z`; the stored level at `oz` yields its
children exactly as `getChildren` would, at least two of them, whose
counts sum to the record's count and whose owned sets the record owns. -/
inductive GoodRec (pc : PC) : ℕ → Rec → Finset ℕ → Prop where
  | leaf (z : ℕ) (rec : Rec) (h1 : rec.num = 1) (h2 : rec.rid < pc.points.length) :
      GoodRec pc z rec {rec.rid}
  | cluster (z : ℕ) (rec : Rec) (oz a : ℕ) (d : List Rec) (f : ℕ → Finset ℕ)
      (hnum : 1 < rec.num)
      (hzo : z < oz) (hoz : oz ≤ pc.o.maxZoom + 1) (hoz1 : 1 ≤ oz) (hoz32 : oz < 32)
      (hrid : rec.rid = encodeId a (oz - 1) pc.points.length)
      (hd : lookupLevel pc oz = some d)
      (ha : a < d.length)
      (hk2 : 2 ≤ (kidsOf pc.o.radius rec.rid a oz d).length)
      (hsum : rec.num = ((kidsOf pc.o.radius rec.rid a oz d).map fun k => (getL d k).num).sum)
      (hkids : ∀ k ∈ kidsOf pc.o.radius rec.rid a oz d, GoodRec pc oz (getL d k) (f k))
      (hdisj : (kidsOf pc.o.radius rec.rid a oz d).Pairwise fun k1 k2 => Disjoint (f k1) (f k2)) :
      GoodRec pc z rec (listUnionBy (kidsOf pc.o.radius rec.rid a oz d) f)

/-- Records of a level lie inside a bounding box. -/
def InBoxL (x1 y1 x2 y2 : ℚ) (d : List Rec) : Prop :=
  ∀ k, k < d.length →
    x1 ≤ (getL d k).x ∧ (getL d k).x ≤ x2 ∧ y1 ≤ (getL d k).y ∧ (getL d k).y ≤ y2

/-- The basic per-level facts of a built hierarchy: counts conserve,
every count is positive, and the level stays inside every box
containing the input points. -/
structure LevelBasic (N : ℕ) (pts : List (ℚ × ℚ)) (d : List Rec) : Prop where
  hsum : sumNum d = N
  hnum : ∀ k, 1 ≤ (getL d k).num
  hbox : ∀ x1 y1 x2 y2 : ℚ,
    (∀ p ∈ pts, x1 ≤ p.1 ∧ p.1 ≤ x2 ∧ y1 ≤ p.2 ∧ p.2 ≤ y2) →
    InBoxL x1 y1 x2 y2 d

/-- The ownership facts of a level: every record is well formed and
distinct records own disjoint sets of original points. -/
def LevelOwn (pc : PC) (z : ℕ) (d : List Rec) : Prop :=
  ∃ osets : ℕ → Finset ℕ,
    (∀ k, k < d.length → GoodRec pc z (getL d k) (osets k)) ∧
    (∀ j k, j < d.length → k < d.length → j ≠ k → Disjoint (osets j) (osets k))

/-- Descending consecutive zoom keys starting just below `t`. -/
def ConsecDesc : ℕ → List ℕ → Prop
  | _, [] => True
  | t, z :: rest => z + 1 = t ∧ ConsecDesc z rest

/-- The tree `getChildren` consults: the level at the decoded origin zoom
(none when the decoded zoom is negative or no tree exists there). -/
def originLevel (pc : PC) (cid : ℤ) : Option (List Rec) :=
  if getOriginZoom pc.points.length cid < 0 then none
  else lookupLevel pc (getOriginZoom pc.points.length cid).toNat

/-- The neighbour radius `getChildren` uses: `baseRadius / (originZoom - 1)`.
No scaling function is applied (none exists in the code). -/
def childRadius (pc : PC) (cid : ℤ) : ℚ :=
  pc.o.radius / ((getOriginZoom pc.points.length cid : ℚ) - 1)

/-- The children `getChildren` selects from level `d`: the neighbours of
the decoded anchor within `childRadius`, filtered to those whose parent
slot equals `clusterId` (a negative decoded anchor index yields no
neighbour candidates, cf. `getChildren`). -/
def childIdxs (pc : PC) (cid : ℤ) (d : List Rec) : List ℕ :=
  (if getOriginId pc.points.length cid < 0 then []
   else withinIdx d (getL d (getOriginId pc.points.length cid).toNat).x
     (getL d (getOriginId pc.points.length cid).toNat).y (childRadius pc cid)).filter
    fun k => (getL d k).parent == cid

/-! ## C2: build radius vs. the documented scaling function -/

/-- C2: the claim says the per-pass search radius is
`baseRadius × scalingFunction(z)` and follows a caller-supplied
non-default scaling function.  The code has no scaling function at all:
every `_cluster` pass uses `buildRadius = radius / zoom` (first
conjunct, definitional), which at radius 40 and zoom 2 gives 20, while
the README's documented contract with the custom scaling
`z ↦ 2 ^ (-z)` would give 10 (remaining conjuncts).  The final
conjunct records that the hard-coded formula agrees with the documented
default scaling `1/zoom` only. -/
theorem C2_radius_ignores_scaling :
    (∀ (o : Opts) (zoom N : ℕ) (data : List Rec),
        clusterPass o zoom N data =
          (List.range data.length).foldl (processIdx o zoom N (buildRadius o zoom)) (data, [])) ∧
    buildRadius ⟨1, 16, 2, 40⟩ 2 = 20 ∧
    scaledRadiusSpec 40 (fun z => 1 / 2 ^ z) 2 = 10 ∧
    buildRadius ⟨1, 16, 2, 40⟩ 2 ≠ scaledRadiusSpec 40 (fun z => 1 / 2 ^ z) 2 ∧
    (∀ (radius : ℚ) (mn mx mp zoom : ℕ),
        buildRadius ⟨mn, mx, mp, radius⟩ zoom =
          scaledRadiusSpec radius (fun z => 1 / (z : ℚ)) zoom) := by
  refine ⟨fun o zoom N data => rfl, by norm_num [buildRadius],
    by norm_num [scaledRadiusSpec], by norm_num [buildRadius, scaledRadiusSpec],
    fun radius mn mx mp zoom => ?_⟩
  simp [buildRadius, scaledRadiusSpec, div_eq_mul_inv, one_div]

/-! ## C3: losslessness of the id encoding -/

/-- C3 counterexample: at zoom 31 the stored tag `zoom + 1 = 32` overflows
the 5 low bits, so the anchor index is not recovered
(`encodeId 0 31 0 = 32` decodes to anchor 1 and origin zoom 0). -/
theorem C3_counterexample :
    ¬ (getOriginId 0 (encodeId 0 31 0) = 0 ∧
       getOriginZoom 0 (encodeId 0 31 0) = 31 + 1) := by decide

/-- C3 amended: the round trip is lossless exactly for zooms whose stored
tag `zoom + 1` fits in 5 bits, i.e. `zoom ∈ [0, 30]`: decoding recovers
the anchor record index exactly and the origin zoom as `zoom + 1` (the
code's origin-zoom convention, cf. `getClusterExpansionZoom`, which
starts from `_getOriginZoom(id) - 1`). -/
theorem C3_roundtrip (a zoom N : ℕ) (h : zoom ≤ 30) :
    getOriginId N (encodeId a zoom N) = a ∧
    getOriginZoom N (encodeId a zoom N) = zoom + 1 := by
  have he : ((encodeId a zoom N : ℤ) - N) = 32 * a + (zoom + 1) := by
    push_cast [encodeId]; ring
  constructor
  · rw [getOriginId, he, Int.fdiv_eq_ediv _ (by norm_num)]
    omega
  · rw [getOriginZoom, he, Int.tmod_eq_emod (by positivity) (by norm_num)]
    omega

/-- C3 witness: the amended round trip at anchor 5, zoom 7, N = 3. -/
theorem C3_witness :
    getOriginId 3 (encodeId 5 7 3) = 5 ∧ getOriginZoom 3 (encodeId 5 7 3) = 7 + 1 :=
  C3_roundtrip 5 7 3 (by norm_num)

/-! ## C4: repeated load -/

/-- C4 counterexample: a second `load` on a live instance does not fail —
it succeeds and rebuilds the hierarchy over the new points, giving
exactly the state a fresh `load` of those points would give. -/
theorem C4_counterexample :
    load (load (construct defaultOpts) [((0 : ℚ), (0 : ℚ))])
        [((5 : ℚ), (5 : ℚ)), ((6 : ℚ), (6 : ℚ))] =
      load (construct defaultOpts) [((5 : ℚ), (5 : ℚ)), ((6 : ℚ), (6 : ℚ))] ∧
    (load (load (construct defaultOpts) [((0 : ℚ), (0 : ℚ))])
        [((5 : ℚ), (5 : ℚ)), ((6 : ℚ), (6 : ℚ))]).points =
      [((5 : ℚ), (5 : ℚ)), ((6 : ℚ), (6 : ℚ))] :=
  ⟨rfl, rfl⟩

/-- C4 amended: `load` never fails; calling it again replaces the loaded
points and rebuilds every level from the new points, identically to a
single `load` of those points on the original instance. -/
theorem C4_load_rebuilds (pc : PC) (pts1 pts2 : List (ℚ × ℚ)) :
    load (load pc pts1) pts2 = load pc pts2 := rfl

/-! ## C5: construction-time zoom validation -/

/-- C5 counterexample: `maxZoom = 32` exceeds the 5-bit zoom capacity, yet
construction succeeds (the options are stored untouched) and the
instance is fully live: it loads points and serves queries. -/
theorem C5_counterexample :
    (construct ⟨1, 32, 2, 40⟩).o.maxZoom = 32 ∧
    getClusters (load (construct ⟨1, 32, 2, 40⟩) [((0 : ℚ), (0 : ℚ))])
        (-1) (-1) 1 1 33 = some [Entry.point 0] := by
  refine ⟨rfl, ?_⟩
  with_unfolding_all decide

/-- C5 amended: the constructor performs no zoom-bounds validation at all;
for every options value (however invalid) it succeeds and merely stores
the options. -/
theorem C5_no_construction_validation (o : Opts) :
    (construct o).o = o ∧ (construct o).points = [] ∧ (construct o).levels = [] :=
  ⟨rfl, rfl, rfl⟩

/-! ## C10: getLeaves defaulting of explicit zeros -/

/-- C10: `limit = limit || 10` and `offset = offset || 0` treat an explicit
`0` exactly like an omitted argument: `getLeaves` with `limit = 0`
behaves identically to the default limit 10 (and to omitting `limit`),
an explicit `offset = 0` is indistinguishable from omitting `offset`,
and on the worked instance `getLeaves(8, 0, 0)` indeed returns the
cluster's two leaves rather than an empty sequence. -/
theorem C10_zero_limit_defaults :
    (∀ (pc : PC) (cid : ℤ) (off : Option ℤ),
        getLeaves pc cid (LimArg.num 0) off = getLeaves pc cid LimArg.undef off) ∧
    (∀ (pc : PC) (cid : ℤ) (off : Option ℤ),
        getLeaves pc cid (LimArg.num 0) off = getLeaves pc cid (LimArg.num 10) off) ∧
    (∀ (pc : PC) (cid : ℤ) (lim : LimArg),
        getLeaves pc cid lim (some 0) = getLeaves pc cid lim none) ∧
    getLeaves exPC 8 (LimArg.num 0) (some 0) = some [0, 1] := by
  refine ⟨fun pc cid off => rfl, fun pc cid off => rfl, fun pc cid lim => rfl, ?_⟩
  with_unfolding_all decide

/-! ## Record-array basics -/

theorem Rec.ext' (a b : Rec) (hx : a.x = b.x) (hy : a.y = b.y) (hm : a.mark = b.mark)
    (hr : a.rid = b.rid) (hp : a.parent = b.parent) (hn : a.num = b.num) : a = b := by
  cases a; cases b; simp_all

theorem setL_length (d : List Rec) (i : ℕ) (v : Rec) : (setL d i v).length = d.length := by
  induction d generalizing i with
  | nil => rfl
  | cons h t ih =>
    cases i with
    | zero => rfl
    | succ n => simp [setL, ih]

theorem getL_nil (i : ℕ) : getL [] i = default := rfl

theorem getL_cons_zero (r : Rec) (t : List Rec) : getL (r :: t) 0 = r := rfl

theorem getL_cons_succ (r : Rec) (t : List Rec) (i : ℕ) : getL (r :: t) (i + 1) = getL t i := rfl

theorem getL_oob (d : List Rec) (i : ℕ) (h : d.length ≤ i) : getL d i = default := by
  induction d generalizing i with
  | nil => rfl
  | cons r t ih =>
    cases i with
    | zero => simp at h
    | succ n => simpa [getL_cons_succ] using ih n (by simpa using h)

theorem getL_setL (d : List Rec) (i : ℕ) (v : Rec) (j : ℕ) :
    getL (setL d i v) j = if j = i ∧ i < d.length then v else getL d j := by
  induction d generalizing i j with
  | nil => simp [setL]
  | cons h t ih =>
    cases i with
    | zero =>
      cases j with
      | zero => simp [setL, getL_cons_zero]
      | succ m => simp [setL, getL_cons_succ]
    | succ n =>
      cases j with
      | zero => simp [setL, getL_cons_zero]
      | succ m =>
        show getL (h :: setL t n v) (m + 1) = _
        rw [getL_cons_succ, ih, getL_cons_succ]
        by_cases h1 : m = n <;> by_cases h2 : n < t.length <;> simp [h1, h2]

theorem getL_setL_self (d : List Rec) (i : ℕ) (v : Rec) (h : i < d.length) :
    getL (setL d i v) i = v := by simp [getL_setL, h]

theorem getL_setL_ne (d : List Rec) (i : ℕ) (v : Rec) (j : ℕ) (h : j ≠ i) :
    getL (setL d i v) j = getL d j := by simp [getL_setL, h]

theorem getL_append_left (l1 l2 : List Rec) (p : ℕ) (h : p < l1.length) :
    getL (l1 ++ l2) p = getL l1 p := by
  induction l1 generalizing p with
  | nil => simp at h
  | cons r t ih =>
    cases p with
    | zero => rfl
    | succ n => simpa [getL_cons_succ] using ih n (by simpa using h)

theorem getL_append_self (l1 : List Rec) (r : Rec) (l2 : List Rec) :
    getL (l1 ++ r :: l2) l1.length = r := by
  induction l1 with
  | nil => rfl
  | cons a t ih => simpa [getL_cons_succ] using ih

theorem getD_append_left {α : Type} (l1 l2 : List α) (dflt : α) (p : ℕ) (h : p < l1.length) :
    (l1 ++ l2).getD p dflt = l1.getD p dflt := by
  induction l1 generalizing p with
  | nil => simp at h
  | cons a t ih =>
    cases p with
    | zero => rfl
    | succ n => simpa using ih n (by simpa using h)

theorem getD_append_self {α : Type} (l1 : List α) (a : α) (l2 : List α) (dflt : α) :
    (l1 ++ a :: l2).getD l1.length dflt = a := by
  induction l1 with
  | nil => rfl
  | cons b t ih => simpa using ih

/-! ## Shape lemmas -/

theorem sameShape_refl (d : List Rec) : SameShape d d :=
  ⟨rfl, fun _ => ⟨rfl, rfl, rfl, rfl⟩⟩

theorem sameShape_trans {d1 d2 d3 : List Rec} (h1 : SameShape d1 d2) (h2 : SameShape d2 d3) :
    SameShape d1 d3 := by
  refine ⟨h1.1.trans h2.1, fun k => ?_⟩
  obtain ⟨a1, a2, a3, a4⟩ := h1.2 k
  obtain ⟨b1, b2, b3, b4⟩ := h2.2 k
  exact ⟨b1.trans a1, b2.trans a2, b3.trans a3, b4.trans a4⟩

theorem sameShape_setL (d : List Rec) (i : ℕ) (v : Rec)
    (hv : v.x = (getL d i).x ∧ v.y = (getL d i).y ∧ v.rid = (getL d i).rid ∧
      v.num = (getL d i).num) :
    SameShape d (setL d i v) := by
  refine ⟨(setL_length d i v).symm, fun k => ?_⟩
  rw [getL_setL]
  split
  · next h => rw [h.1]; exact ⟨hv.1, hv.2.1, hv.2.2.1, hv.2.2.2⟩
  · exact ⟨rfl, rfl, rfl, rfl⟩

theorem sumNum_eq_sum_range (d : List Rec) :
    sumNum d = ∑ k in Finset.range d.length, (getL d k).num := by
  induction d with
  | nil => simp [sumNum]
  | cons r t ih =>
    have : sumNum (r :: t) = r.num + sumNum t := by simp [sumNum]
    rw [this, ih, List.length_cons, Finset.sum_range_succ']
    simp [getL_cons_succ, getL_cons_zero, Nat.add_comm]

theorem sumNum_of_shape {d1 d2 : List Rec} (h : SameShape d1 d2) : sumNum d2 = sumNum d1 := by
  rw [sumNum_eq_sum_range, sumNum_eq_sum_range, ← h.1]
  exact Finset.sum_congr rfl fun k _ => (h.2 k).2.2.2

theorem withinIdx_congr {d1 d2 : List Rec} (h : SameShape d1 d2) (x y r : ℚ) :
    withinIdx d2 x y r = withinIdx d1 x y r := by
  unfold withinIdx
  rw [← h.1]
  exact List.filter_congr fun j _ => by rw [(h.2 j).1, (h.2 j).2.1]

theorem rangeIdx_congr {d1 d2 : List Rec} (h : SameShape d1 d2) (x1 y1 x2 y2 : ℚ) :
    rangeIdx d2 x1 y1 x2 y2 = rangeIdx d1 x1 y1 x2 y2 := by
  unfold rangeIdx
  rw [← h.1]
  exact List.filter_congr fun j _ => by rw [(h.2 j).1, (h.2 j).2.1]

theorem withinIdx_mem (d : List Rec) (x y r : ℚ) (k : ℕ) :
    k ∈ withinIdx d x y r ↔
      k < d.length ∧ sqDist (getL d k).x (getL d k).y x y ≤ r * r := by
  simp [withinIdx, List.mem_filter, List.mem_range]

theorem withinIdx_lt (d : List Rec) (x y r : ℚ) (k : ℕ) (h : k ∈ withinIdx d x y r) :
    k < d.length := ((withinIdx_mem d x y r k).mp h).1

theorem withinIdx_nodup (d : List Rec) (x y r : ℚ) : (withinIdx d x y r).Nodup :=
  (List.nodup_range _).filter _

theorem withinIdx_self (d : List Rec) (i : ℕ) (hi : i < d.length) (r : ℚ) :
    i ∈ withinIdx d (getL d i).x (getL d i).y r := by
  rw [withinIdx_mem]
  refine ⟨hi, ?_⟩
  have : sqDist (getL d i).x (getL d i).y (getL d i).x (getL d i).y = 0 := by
    simp [sqDist]
  rw [this]
  exact mul_self_nonneg r

/-! ## Loop-body characterizations -/

theorem setL_oob (d : List Rec) (i : ℕ) (v : Rec) (h : d.length ≤ i) : setL d i v = d := by
  induction d generalizing i with
  | nil => rfl
  | cons r t ih =>
    cases i with
    | zero => simp at h
    | succ n => simp [setL, ih n (by simpa using h)]

theorem paintAbsorb_getL (zoom cid : ℕ) (ks : List ℕ) :
    ∀ (d : List Rec) (j : ℕ),
      getL (paintAbsorb zoom cid d ks) j =
        if j ∈ ks ∧ j < d.length then
          { getL d j with mark := some zoom, parent := (cid : ℤ) }
        else getL d j := by
  induction ks with
  | nil => intro d j; simp [paintAbsorb]
  | cons k rest ih =>
    intro d j
    have hstep : paintAbsorb zoom cid d (k :: rest) =
        paintAbsorb zoom cid
          (setL d k { getL d k with mark := some zoom, parent := (cid : ℤ) }) rest := rfl
    rw [hstep, ih, setL_length]
    by_cases h1 : j = k
    · subst h1
      by_cases h3 : j < d.length
      · by_cases h2 : j ∈ rest
        · simp [h2, h3, getL_setL_self d j _ h3]
        · simp [h2, h3, getL_setL_self d j _ h3]
      · rw [setL_oob d j _ (Nat.le_of_not_lt h3)]
        simp [h3]
    · rw [getL_setL_ne d k _ j h1]
      simp [List.mem_cons, h1]

theorem paintAbsorb_length (zoom cid : ℕ) (ks : List ℕ) :
    ∀ d : List Rec, (paintAbsorb zoom cid d ks).length = d.length := by
  induction ks with
  | nil => intro d; rfl
  | cons k rest ih => intro d; rw [show paintAbsorb zoom cid d (k :: rest) =
      paintAbsorb zoom cid (setL d k _) rest from rfl, ih, setL_length]

theorem paintAbsorb_shape (zoom cid : ℕ) (ks : List ℕ) (d : List Rec) :
    SameShape d (paintAbsorb zoom cid d ks) := by
  refine ⟨(paintAbsorb_length zoom cid ks d).symm, fun j => ?_⟩
  rw [paintAbsorb_getL]
  split
  · exact ⟨rfl, rfl, rfl, rfl⟩
  · exact ⟨rfl, rfl, rfl, rfl⟩

theorem paintCopy_getL (zoom : ℕ) (ks : List ℕ) :
    ∀ (d : List Rec) (j : ℕ),
      getL (paintCopy zoom d ks) j =
        if j ∈ ks ∧ j < d.length then { getL d j with mark := some zoom }
        else getL d j := by
  induction ks with
  | nil => intro d j; simp [paintCopy]
  | cons k rest ih =>
    intro d j
    have hstep : paintCopy zoom d (k :: rest) =
        paintCopy zoom (setL d k { getL d k with mark := some zoom }) rest := rfl
    rw [hstep, ih, setL_length]
    by_cases h1 : j = k
    · subst h1
      by_cases h3 : j < d.length
      · by_cases h2 : j ∈ rest
        · simp [h2, h3, getL_setL_self d j _ h3]
        · simp [h2, h3, getL_setL_self d j _ h3]
      · rw [setL_oob d j _ (Nat.le_of_not_lt h3)]
        simp [h3]
    · rw [getL_setL_ne d k _ j h1]
      simp [List.mem_cons, h1]

theorem paintCopy_length (zoom : ℕ) (ks : List ℕ) :
    ∀ d : List Rec, (paintCopy zoom d ks).length = d.length := by
  induction ks with
  | nil => intro d; rfl
  | cons k rest ih => intro d; rw [show paintCopy zoom d (k :: rest) =
      paintCopy zoom (setL d k _) rest from rfl, ih, setL_length]

theorem paintCopy_shape (zoom : ℕ) (ks : List ℕ) (d : List Rec) :
    SameShape d (paintCopy zoom d ks) := by
  refine ⟨(paintCopy_length zoom ks d).symm, fun j => ?_⟩
  rw [paintCopy_getL]
  split
  · exact ⟨rfl, rfl, rfl, rfl⟩
  · exact ⟨rfl, rfl, rfl, rfl⟩

theorem countNbrs_eq (d : List Rec) (zoom : ℕ) (nbrs : List ℕ) :
    countNbrs d zoom nbrs =
      ((nbrs.filter fun k => !(Done zoom d k)).map fun k => (getL d k).num).sum := by
  have h : ∀ acc : ℕ,
      nbrs.foldl (fun a k => if markLe (getL d k).mark zoom then a else a + (getL d k).num)
          acc =
        acc + ((nbrs.filter fun k => !(Done zoom d k)).map fun k => (getL d k).num).sum := by
    induction nbrs with
    | nil => intro acc; simp
    | cons k rest ih =>
      intro acc
      rw [List.foldl_cons, List.filter_cons]
      cases hdk : Done zoom d k with
      | true =>
        have hm : markLe (getL d k).mark zoom = true := hdk
        rw [hm]
        simp only [if_true, hdk, Bool.not_true, Bool.false_eq_true, if_false]
        exact ih acc
      | false =>
        have hm : markLe (getL d k).mark zoom = false := hdk
        rw [hm]
        simp only [Bool.false_eq_true, if_false, hdk, Bool.not_false, if_true]
        rw [ih (acc + (getL d k).num)]
        simp [Nat.add_assoc]
  simpa [countNbrs] using h 0

theorem absorb_spec (zoom cid : ℕ) (nbrs : List ℕ) :
    ∀ (d : List Rec) (wx wy : ℚ), nbrs.Nodup → (∀ k ∈ nbrs, k < d.length) →
      absorb zoom cid (d, wx, wy) nbrs =
        (paintAbsorb zoom cid d (nbrs.filter fun k => !(Done zoom d k)),
         wx + ((nbrs.filter fun k => !(Done zoom d k)).map
           fun k => (getL d k).x * ((getL d k).num : ℚ)).sum,
         wy + ((nbrs.filter fun k => !(Done zoom d k)).map
           fun k => (getL d k).y * ((getL d k).num : ℚ)).sum) := by
  induction nbrs with
  | nil => intro d wx wy _ _; simp [absorb, paintAbsorb]
  | cons k rest ih =>
    intro d wx wy hnd hb
    have hk : k ∉ rest := (List.nodup_cons.mp hnd).1
    have hnd' : rest.Nodup := (List.nodup_cons.mp hnd).2
    rw [List.filter_cons]
    cases hdk : Done zoom d k with
    | true =>
      have hm : markLe (getL d k).mark zoom = true := hdk
      have hstep : absorb zoom cid (d, wx, wy) (k :: rest) =
          absorb zoom cid (d, wx, wy) rest := by
        show absorb zoom cid (if markLe (getL d k).mark zoom then (d, wx, wy) else _) rest = _
        rw [hm]; rfl
      rw [hstep, ih d wx wy hnd' fun m hm' => hb m (List.mem_cons_of_mem k hm')]
      simp only [hdk, Bool.not_true, Bool.false_eq_true, if_false]
    | false =>
      have hm : markLe (getL d k).mark zoom = false := hdk
      have hkl : k < d.length := hb k (List.mem_cons_self k rest)
      have hstep : absorb zoom cid (d, wx, wy) (k :: rest) =
          absorb zoom cid
            (setL d k { getL d k with mark := some zoom, parent := (cid : ℤ) },
             wx + (getL d k).x * ((getL d k).num : ℚ),
             wy + (getL d k).y * ((getL d k).num : ℚ)) rest := by
        show absorb zoom cid (if markLe (getL d k).mark zoom then (d, wx, wy) else _) rest = _
        rw [hm]; rfl
      set w : Rec := { getL d k with mark := some zoom, parent := (cid : ℤ) } with hw
      have hb' : ∀ m ∈ rest, m < (setL d k w).length := by
        intro m hm'
        rw [setL_length]
        exact hb m (List.mem_cons_of_mem k hm')
      rw [hstep, ih (setL d k w) _ _ hnd' hb']
      have hfe : rest.filter (fun m => !(Done zoom (setL d k w) m)) =
          rest.filter fun m => !(Done zoom d m) := by
        apply List.filter_congr
        intro m hm'
        have : getL (setL d k w) m = getL d m :=
          getL_setL_ne d k w m (fun e => hk (e ▸ hm'))
        simp [Done, this]
      have hge : ∀ m ∈ rest.filter fun m => !(Done zoom d m),
          getL (setL d k w) m = getL d m := by
        intro m hm'
        exact getL_setL_ne d k w m (fun e => hk (e ▸ (List.mem_filter.mp hm').1))
      rw [hfe]
      refine congrArg₂ _ ?_ (congrArg₂ _ ?_ ?_)
      · rfl
      · rw [List.map_congr_left fun m hm' => by rw [hge m hm']]
        simp only [hdk, Bool.not_false, if_true, List.map_cons, List.sum_cons]
        ring
      · rw [List.map_congr_left fun m hm' => by rw [hge m hm']]
        simp only [hdk, Bool.not_false, if_true, List.map_cons, List.sum_cons]
        ring

theorem copyFwd_spec (zoom : ℕ) (nbrs : List ℕ) :
    ∀ (d next : List Rec), nbrs.Nodup → (∀ k ∈ nbrs, k < d.length) →
      copyFwd zoom (d, next) nbrs =
        (paintCopy zoom d (nbrs.filter fun k => !(Done zoom d k)),
         next ++ (nbrs.filter fun k => !(Done zoom d k)).map
           fun k => markedRec zoom (getL d k)) := by
  induction nbrs with
  | nil => intro d next _ _; simp [copyFwd, paintCopy]
  | cons k rest ih =>
    intro d next hnd hb
    have hk : k ∉ rest := (List.nodup_cons.mp hnd).1
    have hnd' : rest.Nodup := (List.nodup_cons.mp hnd).2
    rw [List.filter_cons]
    cases hdk : Done zoom d k with
    | true =>
      have hm : markLe (getL d k).mark zoom = true := hdk
      have hstep : copyFwd zoom (d, next) (k :: rest) = copyFwd zoom (d, next) rest := by
        show copyFwd zoom (if markLe (getL d k).mark zoom then (d, next) else _) rest = _
        rw [hm]; rfl
      rw [hstep, ih d next hnd' fun m hm' => hb m (List.mem_cons_of_mem k hm')]
      simp only [hdk, Bool.not_true, Bool.false_eq_true, if_false]
    | false =>
      have hm : markLe (getL d k).mark zoom = false := hdk
      have hkl : k < d.length := hb k (List.mem_cons_self k rest)
      set w : Rec := { getL d k with mark := some zoom } with hw
      have hget : getL (setL d k w) k = w := getL_setL_self d k w hkl
      have hstep : copyFwd zoom (d, next) (k :: rest) =
          copyFwd zoom (setL d k w, next ++ [getL (setL d k w) k]) rest := by
        show copyFwd zoom (if markLe (getL d k).mark zoom then (d, next) else _) rest = _
        rw [hm]; rfl
      have hb' : ∀ m ∈ rest, m < (setL d k w).length := by
        intro m hm'
        rw [setL_length]
        exact hb m (List.mem_cons_of_mem k hm')
      rw [hstep, ih (setL d k w) _ hnd' hb']
      have hfe : rest.filter (fun m => !(Done zoom (setL d k w) m)) =
          rest.filter fun m => !(Done zoom d m) := by
        apply List.filter_congr
        intro m hm'
        have : getL (setL d k w) m = getL d m :=
          getL_setL_ne d k w m (fun e => hk (e ▸ hm'))
        simp [Done, this]
      have hge : ∀ m ∈ rest.filter fun m => !(Done zoom d m),
          getL (setL d k w) m = getL d m := by
        intro m hm'
        exact getL_setL_ne d k w m (fun e => hk (e ▸ (List.mem_filter.mp hm').1))
      rw [hfe]
      refine congrArg₂ _ ?_ ?_
      · rfl
      · rw [List.map_congr_left fun m hm' => by rw [hge m hm']]
        simp only [hdk, Bool.not_false, if_true, List.map_cons, hget]
        simp [hw, markedRec]

/-! ## Union helpers -/

theorem mem_listUnion (l : List (Finset ℕ)) (k : ℕ) :
    k ∈ listUnion l ↔ ∃ p, p < l.length ∧ k ∈ l.getD p ∅ := by
  induction l with
  | nil => simp [listUnion]
  | cons s rest ih =>
    show k ∈ s ∪ listUnion rest ↔ _
    rw [Finset.mem_union, ih]
    constructor
    · rintro (h | ⟨p, hp, hk⟩)
      · exact ⟨0, Nat.succ_pos _, h⟩
      · exact ⟨p + 1, Nat.succ_lt_succ hp, hk⟩
    · rintro ⟨p, hp, hk⟩
      cases p with
      | zero => exact Or.inl hk
      | succ q => exact Or.inr ⟨q, Nat.lt_of_succ_lt_succ hp, hk⟩

theorem listUnion_append_single (l : List (Finset ℕ)) (s : Finset ℕ) :
    listUnion (l ++ [s]) = listUnion l ∪ s := by
  induction l with
  | nil => simp [listUnion]
  | cons t rest ih =>
    show t ∪ listUnion (rest ++ [s]) = t ∪ listUnion rest ∪ s
    rw [ih, Finset.union_assoc]

theorem mem_listUnionBy (l : List ℕ) (f : ℕ → Finset ℕ) (x : ℕ) :
    x ∈ listUnionBy l f ↔ ∃ k ∈ l, x ∈ f k := by
  induction l with
  | nil => simp [listUnionBy]
  | cons k rest ih =>
    show x ∈ f k ∪ listUnionBy rest f ↔ _
    rw [Finset.mem_union, ih]
    simp [List.mem_cons, or_and_right, exists_or]

theorem listUnionBy_card (l : List ℕ) (f : ℕ → Finset ℕ) (hnd : l.Nodup)
    (hdisj : l.Pairwise fun a b => Disjoint (f a) (f b)) :
    (listUnionBy l f).card = (l.map fun k => (f k).card).sum := by
  induction l with
  | nil => simp [listUnionBy]
  | cons k rest ih =>
    have hk : ∀ m ∈ rest, Disjoint (f k) (f m) := (List.pairwise_cons.mp hdisj).1
    have hdd : Disjoint (f k) (listUnionBy rest f) := by
      rw [Finset.disjoint_left]
      intro x hx hmem
      obtain ⟨m, hm, hxm⟩ := (mem_listUnionBy rest f x).mp hmem
      exact (Finset.disjoint_left.mp (hk m hm)) hx hxm
    show (f k ∪ listUnionBy rest f).card = _
    rw [Finset.card_union_of_disjoint hdd,
      ih (List.nodup_cons.mp hnd).2 (List.pairwise_cons.mp hdisj).2]
    simp

theorem listUnionBy_eq_biUnion (l : List ℕ) (f : ℕ → Finset ℕ) (s : Finset ℕ)
    (h : l.toFinset = s) :
    listUnionBy l f = s.biUnion f := by
  ext x
  rw [mem_listUnionBy, Finset.mem_biUnion]
  constructor
  · rintro ⟨k, hk, hx⟩
    exact ⟨k, h ▸ List.mem_toFinset.mpr hk, hx⟩
  · rintro ⟨k, hk, hx⟩
    exact ⟨k, List.mem_toFinset.mp (h ▸ hk), hx⟩

theorem listUnion_append (l1 l2 : List (Finset ℕ)) :
    listUnion (l1 ++ l2) = listUnion l1 ∪ listUnion l2 := by
  induction l1 with
  | nil => simp [listUnion]
  | cons s rest ih =>
    show s ∪ listUnion (rest ++ l2) = s ∪ listUnion rest ∪ listUnion l2
    rw [ih, Finset.union_assoc]

theorem listUnion_map_singleton (l : List ℕ) :
    listUnion (l.map fun k => ({k} : Finset ℕ)) = l.toFinset := by
  induction l with
  | nil => simp [listUnion]
  | cons k rest ih =>
    show {k} ∪ listUnion (rest.map fun k => ({k} : Finset ℕ)) = _
    rw [ih]
    ext x
    simp

theorem getL_append_right (l1 l2 : List Rec) (p : ℕ) (h : l1.length ≤ p) :
    getL (l1 ++ l2) p = getL l2 (p - l1.length) := by
  induction l1 generalizing p with
  | nil => simp
  | cons r t ih =>
    cases p with
    | zero => simp at h
    | succ q =>
      rw [List.cons_append, getL_cons_succ, ih q (by simpa using h)]
      simp

theorem getD_append_right {α : Type} (l1 l2 : List α) (dflt : α) (p : ℕ)
    (h : l1.length ≤ p) :
    (l1 ++ l2).getD p dflt = l2.getD (p - l1.length) dflt := by
  induction l1 generalizing p with
  | nil => simp
  | cons a t ih =>
    cases p with
    | zero => simp at h
    | succ q =>
      rw [List.cons_append]
      show (t ++ l2).getD q dflt = _
      rw [ih q (by simpa using h)]
      simp

theorem getL_map_getD {α : Type} (f : α → Rec) (l : List α) (q : ℕ) (h : q < l.length)
    (dflt : α) :
    getL (l.map f) q = f (l.getD q dflt) := by
  induction l generalizing q with
  | nil => simp at h
  | cons a t ih =>
    cases q with
    | zero => rfl
    | succ m => simpa [getL_cons_succ] using ih m (by simpa using h)

theorem getD_map_getD {α β : Type} (f : α → β) (l : List α) (q : ℕ) (h : q < l.length)
    (d1 : α) (d2 : β) :
    (l.map f).getD q d2 = f (l.getD q d1) := by
  induction l generalizing q with
  | nil => simp at h
  | cons a t ih =>
    cases q with
    | zero => rfl
    | succ m => simpa using ih m (by simpa using h)

theorem getD_mem {α : Type} (l : List α) (q : ℕ) (h : q < l.length) (dflt : α) :
    l.getD q dflt ∈ l := by
  induction l generalizing q with
  | nil => simp at h
  | cons a t ih =>
    cases q with
    | zero => exact List.mem_cons_self a t
    | succ m => exact List.mem_cons_of_mem a (ih m (by simpa using h))

/-! ## Pass-step support -/

theorem done_oob (zoom : ℕ) (d : List Rec) (k : ℕ) (h : d.length ≤ k) :
    Done zoom d k = false := by
  rw [Done, getL_oob d k h]
  rfl

theorem markLe_self (zoom : ℕ) : markLe (some zoom) zoom = true := by
  simp [markLe]

theorem encodeId_inj (i a zoom N : ℕ) (h : encodeId i zoom N = encodeId a zoom N) : i = a := by
  simp [encodeId] at h
  omega

theorem natCast_ne_negOne (m : ℕ) : ((m : ℤ) = -1) = False := by
  simp only [eq_iff_iff, iff_false]
  omega

theorem markedRec_x (zoom : ℕ) (r : Rec) : (markedRec zoom r).x = r.x := rfl

theorem markedRec_y (zoom : ℕ) (r : Rec) : (markedRec zoom r).y = r.y := rfl

theorem markedRec_mark (zoom : ℕ) (r : Rec) : (markedRec zoom r).mark = some zoom := rfl

theorem markedRec_rid (zoom : ℕ) (r : Rec) : (markedRec zoom r).rid = r.rid := rfl

theorem markedRec_parent (zoom : ℕ) (r : Rec) : (markedRec zoom r).parent = r.parent := rfl

theorem markedRec_num (zoom : ℕ) (r : Rec) : (markedRec zoom r).num = r.num := rfl

theorem mem_childSet (d : List Rec) (cid : ℕ) (k : ℕ) :
    k ∈ childSet d cid ↔ k < d.length ∧ (getL d k).parent = (cid : ℤ) := by
  simp [childSet, List.mem_toFinset, List.mem_filter, List.mem_range, beq_iff_eq]

theorem childSet_ext {d du : List Rec} (cid : ℕ) (hlen : du.length = d.length)
    (h : ∀ k, k < d.length → ((getL du k).parent = (cid : ℤ) ↔ (getL d k).parent = (cid : ℤ))) :
    childSet du cid = childSet d cid := by
  ext k
  rw [mem_childSet, mem_childSet, hlen]
  constructor
  · rintro ⟨h1, h2⟩
    exact ⟨h1, (h k h1).mp h2⟩
  · rintro ⟨h1, h2⟩
    exact ⟨h1, (h k h1).mpr h2⟩

theorem src_done {o : Opts} {zoom N : ℕ} {data0 d next : List Rec} {srcs : List (Finset ℕ)}
    (hs : SrcsOK o zoom N data0 d next srcs) (p : ℕ) (hp : p < srcs.length)
    (k : ℕ) (hk : k ∈ srcs.getD p ∅) : k < data0.length ∧ Done zoom d k = true :=
  (hs.hcover k).mp ((mem_listUnion srcs k).mpr ⟨p, hp, hk⟩)

theorem EmitSrc_transfer {o : Opts} {data0 d du : List Rec} {zoom N : ℕ} {rec : Rec}
    {s : Finset ℕ} (h : EmitSrc o data0 d zoom N rec s)
    (hcs : childSet du rec.rid = childSet d rec.rid) :
    EmitSrc o data0 du zoom N rec s := by
  obtain ⟨a, h1, h2, h3, h4, h5, h6, h7, h8, h9, h10, h11⟩ := h
  exact ⟨a, h1, h2, h3, h4, by rw [hcs]; exact h5, h6, h7, h8, h9, h10, h11⟩

theorem RecSrc_transfer {o : Opts} {data0 d du : List Rec} {zoom N : ℕ} {rec : Rec}
    {s : Finset ℕ} (h : RecSrc o data0 d zoom N rec s)
    (hcs : childSet du rec.rid = childSet d rec.rid) :
    RecSrc o data0 du zoom N rec s := by
  rcases h with h | h
  · exact Or.inl h
  · exact Or.inr (EmitSrc_transfer h hcs)

theorem processIdx_skip (o : Opts) (zoom N : ℕ) (r : ℚ) (d next : List Rec) (i : ℕ)
    (h : Done zoom d i = true) :
    processIdx o zoom N r (d, next) i = (d, next) := by
  have hm : markLe (getL d i).mark zoom = true := h
  simp [processIdx, hm]

theorem processIdx_go (o : Opts) (zoom N : ℕ) (r : ℚ) (d next : List Rec) (i : ℕ)
    (h : Done zoom d i = false) :
    processIdx o zoom N r (d, next) i =
      (let ri := getL d i
       let d1 := setL d i { ri with mark := some zoom }
       let nbrs := withinIdx d1 ri.x ri.y r
       let nP := ri.num + countNbrs d1 zoom nbrs
       if ri.num < nP ∧ o.minPoints ≤ nP then
         let cid := encodeId i zoom N
         let a := absorb zoom cid (d1, ri.x * (ri.num : ℚ), ri.y * (ri.num : ℚ)) nbrs
         (setL a.1 i { getL a.1 i with parent := (cid : ℤ) },
          next ++ [⟨a.2.1 / (nP : ℚ), a.2.2 / (nP : ℚ), none, cid, -1, nP⟩])
       else
         let next1 := next ++ [getL d1 i]
         if 1 < nP then copyFwd zoom (d1, next1) nbrs else (d1, next1)) := by
  have hm : markLe (getL d i).mark zoom = false := h
  simp [processIdx, hm]

theorem undone_eq (o : Opts) (zoom N : ℕ) (data0 : List Rec) (bound : ℕ)
    (st : List Rec × List Rec) (hinv : PassInv o zoom N data0 bound st)
    (hfresh : Fresh zoom data0) (k : ℕ) (hk : k < data0.length)
    (hdk : Done zoom st.1 k = false) : getL st.1 k = getL data0 k := by
  obtain ⟨srcs, hs⟩ := hinv.hsrc
  refine Rec.ext' _ _ (hinv.hshape.2 k).1 (hinv.hshape.2 k).2.1 ?_ (hinv.hshape.2 k).2.2.1 ?_
    (hinv.hshape.2 k).2.2.2
  · rcases hinv.hmark k with h | h
    · exact h
    · exfalso
      rw [Done, h, markLe_self] at hdk
      cases hdk
  · rcases hs.hpar k hk with h | ⟨p, hp, _, _, hmem⟩
    · rw [h, (hfresh k).2]
    · exfalso
      have hu : k ∈ listUnion srcs := by
        rw [mem_listUnion]
        exact ⟨p, by rw [hs.hlen]; exact hp, hmem⟩
      have := ((hs.hcover k).mp hu).2
      rw [this] at hdk
      cases hdk

/-- Invariant transfer for the merge branch of one `_cluster` step:
`du` is the level after marking/parenting the trigger `i` and the absorbed
set `A`, and `recNew` is the emitted cluster record. -/
theorem merge_inv (o : Opts) (zoom N : ℕ) (data0 : List Rec)
    (hfresh : Fresh zoom data0)
    (i : ℕ) (hi : i < data0.length) (d next : List Rec)
    (hinv : PassInv o zoom N data0 i (d, next))
    (hdi : Done zoom d i = false)
    (A : List ℕ) (hAnodup : A.Nodup)
    (hAchar : ∀ k, k ∈ A ↔
      k ∈ withinIdx data0 (getL data0 i).x (getL data0 i).y (buildRadius o zoom) ∧
      k ≠ i ∧ Done zoom d k = false)
    (hAne : A ≠ [])
    (du : List Rec) (hdulen : du.length = d.length)
    (hdu : ∀ k, getL du k =
      if k = i then { getL d i with mark := some zoom, parent := (encodeId i zoom N : ℤ) }
      else if k ∈ A then
        { getL d k with mark := some zoom, parent := (encodeId i zoom N : ℤ) }
      else getL d k)
    (recNew : Rec)
    (hrrid : recNew.rid = encodeId i zoom N)
    (hrmark : recNew.mark = none)
    (hrpar : recNew.parent = -1)
    (hrnum : recNew.num = ((i :: A).map fun k => (getL data0 k).num).sum)
    (hrx : recNew.x * (recNew.num : ℚ) =
      ((i :: A).map fun k => (getL data0 k).x * ((getL data0 k).num : ℚ)).sum)
    (hry : recNew.y * (recNew.num : ℚ) =
      ((i :: A).map fun k => (getL data0 k).y * ((getL data0 k).num : ℚ)).sum) :
    PassInv o zoom N data0 (i + 1) (du, next ++ [recNew]) := by
  obtain ⟨srcs, hs⟩ := hinv.hsrc
  replace hs : SrcsOK o zoom N data0 d next srcs := hs
  have hdlen : d.length = data0.length := hinv.hshape.1.symm
  have hdulen' : du.length = data0.length := hdulen.trans hdlen
  have hAlt : ∀ k ∈ A, k < data0.length := by
    intro k hk
    have h1 := ((hAchar k).mp hk).1
    exact withinIdx_lt data0 _ _ _ k h1
  have hAi : i ∉ A := fun h => ((hAchar i).mp h).2.1 rfl
  have hAundone : ∀ k ∈ A, Done zoom d k = false := fun k hk => ((hAchar k).mp hk).2.2
  have hparfresh : ∀ k, k < data0.length → Done zoom d k = false → (getL d k).parent = -1 := by
    intro k hk hdk
    rw [undone_eq o zoom N data0 i (d, next) hinv hfresh k hk hdk]
    exact (hfresh k).2
  -- every emitted record so far decodes to a processed anchor
  have hemit_of : ∀ p, p < next.length → (getL next p).mark = none →
      ∃ ap, (getL next p).rid = encodeId ap zoom N ∧ Done zoom d ap = true := by
    intro p hp hmk
    rcases hs.hrec p hp with hcopy | hemit
    · obtain ⟨kk, _, _, hrec⟩ := hcopy
      rw [hrec, markedRec_mark] at hmk
      cases hmk
    · obtain ⟨ap, hap, hridp, _, _, hsp, hamem, _⟩ := hemit
      refine ⟨ap, hridp, ?_⟩
      exact (src_done hs p (by rw [hs.hlen]; exact hp) ap hamem).2
  -- no existing emitted id equals the new id
  have hrid_ne : ∀ p, p < next.length → (getL next p).mark = none →
      (getL next p).rid ≠ encodeId i zoom N := by
    intro p hp hmk hcontra
    obtain ⟨ap, hridp, hdone_ap⟩ := hemit_of p hp hmk
    rw [hridp] at hcontra
    have : ap = i := encodeId_inj ap i zoom N hcontra
    rw [this] at hdone_ap
    rw [hdone_ap] at hdi
    cases hdi
  -- no existing parent slot holds the new id
  have hnotcid : ∀ k, k < data0.length → (getL d k).parent ≠ (encodeId i zoom N : ℤ) := by
    intro k hk hcontra
    rcases hs.hpar k hk with h | ⟨p, hp, hmk, hpr, _⟩
    · rw [h] at hcontra
      have := Int.natCast_nonneg (encodeId i zoom N)
      omega
    · rw [hpr] at hcontra
      have : (getL next p).rid = encodeId i zoom N := by exact_mod_cast hcontra
      exact hrid_ne p hp hmk this
  -- pointwise description of du
  have hdu_i : getL du i =
      { getL d i with mark := some zoom, parent := (encodeId i zoom N : ℤ) } := by
    rw [hdu i, if_pos rfl]
  have hdu_A : ∀ k ∈ A, getL du k =
      { getL d k with mark := some zoom, parent := (encodeId i zoom N : ℤ) } := by
    intro k hk
    have hne : k ≠ i := ((hAchar k).mp hk).2.1
    rw [hdu k, if_neg hne, if_pos hk]
  have hdu_other : ∀ k, k ≠ i → k ∉ A → getL du k = getL d k := by
    intro k h1 h2
    rw [hdu k, if_neg h1, if_neg h2]
  have hpar_du : ∀ k, (getL du k).parent =
      if k = i ∨ k ∈ A then (encodeId i zoom N : ℤ) else (getL d k).parent := by
    intro k
    by_cases h1 : k = i
    · subst h1; rw [hdu_i]; simp
    · by_cases h2 : k ∈ A
      · rw [hdu_A k h2]; simp [h2]
      · rw [hdu_other k h1 h2]; simp [h1, h2]
  have hmark_du : ∀ k, (getL du k).mark =
      if k = i ∨ k ∈ A then some zoom else (getL d k).mark := by
    intro k
    by_cases h1 : k = i
    · subst h1; rw [hdu_i]; simp
    · by_cases h2 : k ∈ A
      · rw [hdu_A k h2]; simp [h2]
      · rw [hdu_other k h1 h2]; simp [h1, h2]
  have hdone_du : ∀ k, Done zoom du k = if k = i ∨ k ∈ A then true else Done zoom d k := by
    intro k
    by_cases h : k = i ∨ k ∈ A
    · rw [if_pos h]
      show markLe (getL du k).mark zoom = true
      have hm := hmark_du k
      rw [if_pos h] at hm
      rw [hm, markLe_self]
    · rw [if_neg h]
      show markLe (getL du k).mark zoom = Done zoom d k
      have hm := hmark_du k
      rw [if_neg h] at hm
      rw [hm]
      rfl
  -- the new child set
  have hS_new : childSet du (encodeId i zoom N) = insert i A.toFinset := by
    ext k
    rw [mem_childSet, Finset.mem_insert, List.mem_toFinset, hdulen']
    constructor
    · rintro ⟨hk, hpk⟩
      rw [hpar_du k] at hpk
      by_cases h : k = i ∨ k ∈ A
      · exact h
      · rw [if_neg h] at hpk
        exact absurd hpk (hnotcid k hk)
    · intro h
      have hk : k < data0.length := by
        rcases h with h | h
        · exact h ▸ hi
        · exact hAlt k h
      refine ⟨hk, ?_⟩
      rw [hpar_du k, if_pos h]
  -- old child sets unchanged
  have hS_old : ∀ p, p < next.length → (getL next p).mark = none →
      childSet du (getL next p).rid = childSet d (getL next p).rid := by
    intro p hp hmk
    refine childSet_ext _ hdulen fun k hk => ?_
    have hk' : k < data0.length := by rw [← hdlen]; exact hk
    rw [hpar_du k]
    by_cases h : k = i ∨ k ∈ A
    · rw [if_pos h]
      have hfr : Done zoom d k = false := by
        rcases h with h | h
        · exact h ▸ hdi
        · exact hAundone k h
      have hold : (getL d k).parent = -1 := hparfresh k hk' hfr
      constructor
      · intro hc
        exfalso
        have : (getL next p).rid = encodeId i zoom N := by exact_mod_cast hc.symm
        exact hrid_ne p hp hmk this
      · intro hc
        exfalso
        rw [hold] at hc
        have := Int.natCast_nonneg (getL next p).rid
        omega
    · rw [if_neg h]
  -- assemble the invariant
  refine ⟨?_, ?_, ?_, ?_⟩
  · -- shape
    refine ⟨hdulen'.symm, fun k => ?_⟩
    have hsh := hinv.hshape.2 k
    by_cases h1 : k = i
    · subst h1; rw [hdu_i]; exact hsh
    · by_cases h2 : k ∈ A
      · rw [hdu_A k h2]; exact hsh
      · rw [hdu_other k h1 h2]; exact hsh
  · -- marks
    intro k
    rw [hmark_du k]
    by_cases h : k = i ∨ k ∈ A
    · rw [if_pos h]; exact Or.inr rfl
    · rw [if_neg h]; exact hinv.hmark k
  · -- done prefix
    intro k hk
    rw [hdone_du k]
    by_cases h : k = i ∨ k ∈ A
    · rw [if_pos h]
    · rw [if_neg h]
      rcases Nat.lt_succ_iff_lt_or_eq.mp hk with h1 | h1
      · exact hinv.hdone k h1
      · exact absurd (Or.inl h1) h
  · -- sources
    refine ⟨srcs ++ [insert i A.toFinset], ?_, ?_, ?_, ?_, ?_⟩
    · -- lengths
      rw [List.length_append, List.length_append, hs.hlen]
      rfl
    · -- per-record provenance
      intro p hp
      rw [List.length_append] at hp
      simp only [List.length_singleton] at hp
      by_cases hp1 : p < next.length
      · rw [getL_append_left next [recNew] p hp1,
          getD_append_left srcs [insert i A.toFinset] ∅ p (by rw [hs.hlen]; exact hp1)]
        rcases hs.hrec p hp1 with hcopy | hemit
        · exact Or.inl hcopy
        · refine Or.inr (EmitSrc_transfer hemit ?_)
          obtain ⟨ap, hap, hridp, hmkp, _⟩ := hemit
          exact hS_old p hp1 hmkp
      · -- the new entry
        have hpe : p = next.length := by omega
        subst hpe
        have h1 : getL (next ++ [recNew]) next.length = recNew := getL_append_self next recNew []
        have h2 : (srcs ++ [insert i A.toFinset]).getD next.length ∅ = insert i A.toFinset := by
          rw [← hs.hlen]
          exact getD_append_self srcs (insert i A.toFinset) [] ∅
        rw [h1, h2]
        refine Or.inr ⟨i, hi, hrrid, hrmark, hrpar, ?_, ?_, ?_, ?_, ?_, ?_, ?_⟩
        · rw [hrrid, hS_new]
        · exact Finset.mem_insert_self i A.toFinset
        · rw [Finset.card_insert_of_not_mem fun h => hAi (List.mem_toFinset.mp h)]
          have hne : A.toFinset.Nonempty := by
            obtain ⟨a, ha⟩ := List.exists_mem_of_ne_nil A hAne
            exact ⟨a, List.mem_toFinset.mpr ha⟩
          have := Finset.card_pos.mpr hne
          omega
        · intro k hk
          rcases Finset.mem_insert.mp hk with h | h
          · subst h
            exact withinIdx_self data0 k hi _
          · exact ((hAchar k).mp (List.mem_toFinset.mp h)).1
        · rw [hrnum]
          have hnodup : (i :: A).Nodup := List.nodup_cons.mpr ⟨hAi, hAnodup⟩
          rw [← List.sum_toFinset _ hnodup]
          congr 1
          simp
        · rw [hrx]
          have hnodup : (i :: A).Nodup := List.nodup_cons.mpr ⟨hAi, hAnodup⟩
          rw [← List.sum_toFinset _ hnodup]
          congr 1
          simp
        · rw [hry]
          have hnodup : (i :: A).Nodup := List.nodup_cons.mpr ⟨hAi, hAnodup⟩
          rw [← List.sum_toFinset _ hnodup]
          congr 1
          simp
    · -- pairwise disjoint
      rw [List.pairwise_append]
      refine ⟨hs.hdisj, List.pairwise_singleton _ _, ?_⟩
      intro s1 hs1 s2 hs2
      rw [List.mem_singleton] at hs2
      subst hs2
      obtain ⟨p, hp, hgp⟩ := List.getElem_of_mem hs1
      rw [Finset.disjoint_right]
      intro k hk
      have hfr : Done zoom d k = false := by
        rcases Finset.mem_insert.mp hk with h | h
        · exact h ▸ hdi
        · exact hAundone k (List.mem_toFinset.mp h)
      intro hmem
      have hmem' : k ∈ srcs.getD p ∅ := by
        rw [List.getD_eq_getElem?_getD, List.getElem?_eq_getElem hp, Option.getD_some, hgp]
        exact hmem
      have := (src_done hs p hp k hmem').2
      rw [this] at hfr
      cases hfr
    · -- coverage
      intro k
      rw [listUnion_append_single, Finset.mem_union, hs.hcover k, hdone_du k]
      by_cases h : k = i ∨ k ∈ A
      · rw [if_pos h]
        constructor
        · intro _
          refine ⟨?_, rfl⟩
          rcases h with h | h
          · exact h ▸ hi
          · exact hAlt k h
        · intro _
          right
          rw [Finset.mem_insert, List.mem_toFinset]
          exact h
      · rw [if_neg h]
        constructor
        · rintro (hh | hh)
          · exact hh
          · exfalso
            rcases Finset.mem_insert.mp hh with h1 | h1
            · exact h (Or.inl h1)
            · exact h (Or.inr (List.mem_toFinset.mp h1))
        · intro hh
          exact Or.inl hh
    · -- parent accounting
      intro k hk
      by_cases h : k = i ∨ k ∈ A
      · right
        refine ⟨next.length, by simp, ?_, ?_, ?_⟩
        · rw [getL_append_self next recNew []]
          exact hrmark
        · rw [getL_append_self next recNew [], hpar_du k, if_pos h, hrrid]
        · have h2 : (srcs ++ [insert i A.toFinset]).getD next.length ∅ =
              insert i A.toFinset := by
            rw [← hs.hlen]
            exact getD_append_self srcs (insert i A.toFinset) [] ∅
          rw [h2, Finset.mem_insert, List.mem_toFinset]
          exact h
      · rcases hs.hpar k hk with h1 | ⟨p, hp, hmk, hpr, hmem⟩
        · left
          rw [hpar_du k, if_neg h]
          exact h1
        · right
          refine ⟨p, by rw [List.length_append]; omega, ?_, ?_, ?_⟩
          · rw [getL_append_left next [recNew] p hp]
            exact hmk
          · rw [getL_append_left next [recNew] p hp, hpar_du k, if_neg h]
            exact hpr
          · rw [getD_append_left srcs [insert i A.toFinset] ∅ p (by rw [hs.hlen]; exact hp)]
            exact hmem

/-- Invariant transfer for the no-merge branch of one `_cluster` step:
the trigger `i` and the still-unprocessed neighbours `A` are marked and
copied forward unchanged. -/
theorem copy_inv (o : Opts) (zoom N : ℕ) (data0 : List Rec)
    (hfresh : Fresh zoom data0)
    (i : ℕ) (hi : i < data0.length) (d next : List Rec)
    (hinv : PassInv o zoom N data0 i (d, next))
    (hdi : Done zoom d i = false)
    (A : List ℕ) (hAnodup : A.Nodup)
    (hAchar : ∀ k, k ∈ A ↔
      k ∈ withinIdx data0 (getL data0 i).x (getL data0 i).y (buildRadius o zoom) ∧
      k ≠ i ∧ Done zoom d k = false)
    (du : List Rec) (hdulen : du.length = d.length)
    (hdu : ∀ k, getL du k =
      if k = i ∨ k ∈ A then markedRec zoom (getL d k) else getL d k) :
    PassInv o zoom N data0 (i + 1)
      (du, next ++ (i :: A).map fun k => markedRec zoom (getL data0 k)) := by
  obtain ⟨srcs, hs⟩ := hinv.hsrc
  replace hs : SrcsOK o zoom N data0 d next srcs := hs
  have hdlen : d.length = data0.length := hinv.hshape.1.symm
  have hdulen' : du.length = data0.length := hdulen.trans hdlen
  have hAlt : ∀ k ∈ A, k < data0.length := by
    intro k hk
    exact withinIdx_lt data0 _ _ _ k ((hAchar k).mp hk).1
  have hAi : i ∉ A := fun h => ((hAchar i).mp h).2.1 rfl
  have hAundone : ∀ k ∈ A, Done zoom d k = false := fun k hk => ((hAchar k).mp hk).2.2
  have hIA : ∀ k ∈ (i :: A), k < data0.length ∧ Done zoom d k = false := by
    intro k hk
    rcases List.mem_cons.mp hk with h | h
    · exact ⟨h ▸ hi, h ▸ hdi⟩
    · exact ⟨hAlt k h, hAundone k h⟩
  have hpar_du : ∀ k, (getL du k).parent = (getL d k).parent := by
    intro k
    rw [hdu k]
    by_cases h : k = i ∨ k ∈ A
    · rw [if_pos h, markedRec_parent]
    · rw [if_neg h]
  have hmark_du : ∀ k, (getL du k).mark =
      if k = i ∨ k ∈ A then some zoom else (getL d k).mark := by
    intro k
    by_cases h : k = i ∨ k ∈ A
    · rw [hdu k, if_pos h, if_pos h, markedRec_mark]
    · rw [hdu k, if_neg h, if_neg h]
  have hdone_du : ∀ k, Done zoom du k = if k = i ∨ k ∈ A then true else Done zoom d k := by
    intro k
    by_cases h : k = i ∨ k ∈ A
    · rw [if_pos h]
      show markLe (getL du k).mark zoom = true
      have hm := hmark_du k
      rw [if_pos h] at hm
      rw [hm, markLe_self]
    · rw [if_neg h]
      show markLe (getL du k).mark zoom = Done zoom d k
      have hm := hmark_du k
      rw [if_neg h] at hm
      rw [hm]
      rfl
  have hcs_all : ∀ c : ℕ, childSet du c = childSet d c := fun c =>
    childSet_ext c hdulen fun k _ => by rw [hpar_du k]
  have hclen : ((i :: A).map fun k => markedRec zoom (getL data0 k)).length = A.length + 1 := by
    simp
  have hslen : ((i :: A).map fun k => ({k} : Finset ℕ)).length = A.length + 1 := by
    simp
  refine ⟨?_, ?_, ?_, ?_⟩
  · -- shape
    refine ⟨hdulen'.symm, fun k => ?_⟩
    have hsh := hinv.hshape.2 k
    rw [hdu k]
    by_cases h : k = i ∨ k ∈ A
    · rw [if_pos h, markedRec_x, markedRec_y, markedRec_rid, markedRec_num]
      exact hsh
    · rw [if_neg h]
      exact hsh
  · -- marks
    intro k
    rw [hmark_du k]
    by_cases h : k = i ∨ k ∈ A
    · rw [if_pos h]; exact Or.inr rfl
    · rw [if_neg h]; exact hinv.hmark k
  · -- done prefix
    intro k hk
    rw [hdone_du k]
    by_cases h : k = i ∨ k ∈ A
    · rw [if_pos h]
    · rw [if_neg h]
      rcases Nat.lt_succ_iff_lt_or_eq.mp hk with h1 | h1
      · exact hinv.hdone k h1
      · exact absurd (Or.inl h1) h
  · -- sources
    refine ⟨srcs ++ (i :: A).map fun k => ({k} : Finset ℕ), ?_, ?_, ?_, ?_, ?_⟩
    · rw [List.length_append, List.length_append, hs.hlen, hclen, hslen]
    · intro p hp
      rw [List.length_append, hclen] at hp
      by_cases hp1 : p < next.length
      · rw [getL_append_left next _ p hp1,
          getD_append_left srcs _ ∅ p (by rw [hs.hlen]; exact hp1)]
        exact RecSrc_transfer (hs.hrec p hp1) (hcs_all _)
      · have hq : p - next.length < (i :: A).length := by
          simp only [List.length_cons]
          omega
        have h1 : getL (next ++ (i :: A).map fun k => markedRec zoom (getL data0 k)) p =
            markedRec zoom (getL data0 ((i :: A).getD (p - next.length) 0)) := by
          rw [getL_append_right _ _ p (Nat.le_of_not_lt hp1)]
          exact getL_map_getD _ (i :: A) (p - next.length) hq 0
        have h2 : ((srcs ++ (i :: A).map fun k => ({k} : Finset ℕ)).getD p ∅) =
            ({(i :: A).getD (p - next.length) 0} : Finset ℕ) := by
          rw [getD_append_right srcs _ ∅ p (by rw [hs.hlen]; exact Nat.le_of_not_lt hp1),
            hs.hlen]
          exact getD_map_getD _ (i :: A) (p - next.length) hq 0 ∅
        rw [h1, h2]
        exact Or.inl ⟨(i :: A).getD (p - next.length) 0,
          (hIA _ (getD_mem (i :: A) (p - next.length) hq 0)).1, rfl, rfl⟩
    · -- pairwise disjoint
      rw [List.pairwise_append]
      refine ⟨hs.hdisj, ?_, ?_⟩
      · rw [List.pairwise_map]
        have hnodup : (i :: A).Nodup := List.nodup_cons.mpr ⟨hAi, hAnodup⟩
        exact hnodup.imp fun hab => Finset.disjoint_singleton.mpr hab
      · intro s1 hs1 s2 hs2
        obtain ⟨k, hkmem, hks⟩ := List.mem_map.mp hs2
        subst hks
        obtain ⟨p, hp, hgp⟩ := List.getElem_of_mem hs1
        rw [Finset.disjoint_right]
        intro x hx hmem
        rw [Finset.mem_singleton] at hx
        rw [hx] at hmem
        have hmem' : k ∈ srcs.getD p ∅ := by
          rw [List.getD_eq_getElem?_getD, List.getElem?_eq_getElem hp, Option.getD_some, hgp]
          exact hmem
        have hd2 := (src_done hs p hp k hmem').2
        have := (hIA k hkmem).2
        rw [hd2] at this
        cases this
    · -- coverage
      intro k
      rw [listUnion_append, listUnion_map_singleton, Finset.mem_union, hs.hcover k,
        hdone_du k]
      by_cases h : k = i ∨ k ∈ A
      · rw [if_pos h]
        constructor
        · intro _
          exact ⟨(hIA k (List.mem_cons.mpr h)).1, rfl⟩
        · intro _
          right
          rw [List.mem_toFinset]
          exact List.mem_cons.mpr h
      · rw [if_neg h]
        constructor
        · rintro (hh | hh)
          · exact hh
          · exact absurd (List.mem_cons.mp (List.mem_toFinset.mp hh)) h
        · intro hh
          exact Or.inl hh
    · -- parent accounting
      intro k hk
      rcases hs.hpar k hk with h1 | ⟨p, hp, hmk, hpr, hmem⟩
      · left
        rw [hpar_du k]
        exact h1
      · right
        refine ⟨p, ?_, ?_, ?_, ?_⟩
        · rw [List.length_append]
          omega
        · rw [getL_append_left next _ p hp]
          exact hmk
        · rw [getL_append_left next _ p hp, hpar_du k]
          exact hpr
        · rw [getD_append_left srcs _ ∅ p (by rw [hs.hlen]; exact hp)]
          exact hmem

theorem updateMarkParent (r : Rec) (m : Option ℕ) (p : ℤ) :
    { ({ r with mark := m } : Rec) with parent := p } = { r with mark := m, parent := p } := rfl

/-- One step of `_cluster`'s main scan preserves the pass invariant. -/
theorem processIdx_inv (o : Opts) (zoom N : ℕ) (data0 : List Rec)
    (hfresh : Fresh zoom data0) (hnum : ∀ k, 1 ≤ (getL data0 k).num)
    (i : ℕ) (hi : i < data0.length) (st : List Rec × List Rec)
    (hinv : PassInv o zoom N data0 i st) :
    PassInv o zoom N data0 (i + 1) (processIdx o zoom N (buildRadius o zoom) st i) := by
  obtain ⟨d, next⟩ := st
  cases hdi : Done zoom d i with
  | true =>
    rw [processIdx_skip o zoom N _ d next i hdi]
    refine ⟨hinv.hshape, hinv.hmark, ?_, hinv.hsrc⟩
    intro k hk
    rcases Nat.lt_succ_iff_lt_or_eq.mp hk with h | h
    · exact hinv.hdone k h
    · exact h ▸ hdi
  | false =>
    have hdlen : d.length = data0.length := hinv.hshape.1.symm
    have hii : i < d.length := by rw [hdlen]; exact hi
    have hri : getL d i = getL data0 i :=
      undone_eq o zoom N data0 i (d, next) hinv hfresh i hi hdi
    have hm : markLe (getL d i).mark zoom = false := hdi
    rw [processIdx_go o zoom N (buildRadius o zoom) d next i hdi]
    simp only []
    set d1 := setL d i { getL d i with mark := some zoom } with hd1_def
    set nbrs := withinIdx d1 (getL d i).x (getL d i).y (buildRadius o zoom) with hnbrs_def
    set cnt := countNbrs d1 zoom nbrs with hcnt_def
    have hshape_d1 : SameShape data0 d1 := by
      rw [hd1_def]
      exact sameShape_trans hinv.hshape (sameShape_setL d i _ ⟨rfl, rfl, rfl, rfl⟩)
    have hd1len : d1.length = data0.length := hshape_d1.1.symm
    have hg1 : ∀ k, getL d1 k =
        if k = i then { getL d i with mark := some zoom } else getL d k := by
      intro k
      rw [hd1_def, getL_setL]
      by_cases hk : k = i
      · simp [hk, hii]
      · simp [hk]
    have hg1i : getL d1 i = { getL d i with mark := some zoom } := by
      rw [hg1]
      simp
    have hdone1 : ∀ k, Done zoom d1 k = if k = i then true else Done zoom d k := by
      intro k
      by_cases hk : k = i
      · subst hk
        rw [if_pos rfl]
        show markLe (getL d1 k).mark zoom = true
        rw [hg1i]
        exact markLe_self zoom
      · rw [if_neg hk]
        show markLe (getL d1 k).mark zoom = Done zoom d k
        rw [hg1 k, if_neg hk]
        rfl
    have hnbrs0 : nbrs =
        withinIdx data0 (getL data0 i).x (getL data0 i).y (buildRadius o zoom) := by
      rw [hnbrs_def, withinIdx_congr hshape_d1, hri]
    have hnodup : nbrs.Nodup := by
      rw [hnbrs_def]
      exact withinIdx_nodup d1 _ _ _
    have hblt : ∀ k ∈ nbrs, k < d1.length := by
      intro k hk
      rw [hnbrs_def] at hk
      exact withinIdx_lt d1 _ _ _ k hk
    set A := nbrs.filter (fun k => !(Done zoom d1 k)) with hA_def
    have hA_char : ∀ k, k ∈ A ↔
        k ∈ withinIdx data0 (getL data0 i).x (getL data0 i).y (buildRadius o zoom) ∧
        k ≠ i ∧ Done zoom d k = false := by
      intro k
      rw [hA_def, List.mem_filter, ← hnbrs0]
      constructor
      · rintro ⟨h1, h2⟩
        rw [hdone1 k] at h2
        by_cases hk : k = i
        · rw [if_pos hk] at h2
          simp at h2
        · rw [if_neg hk] at h2
          refine ⟨h1, hk, ?_⟩
          cases hkk : Done zoom d k
          · rfl
          · rw [hkk] at h2
            simp at h2
      · rintro ⟨h1, h2, h3⟩
        refine ⟨h1, ?_⟩
        rw [hdone1 k, if_neg h2, h3]
        rfl
    have hA_nodup : A.Nodup := hnodup.filter _
    have hA_lt1 : ∀ k ∈ A, k < d1.length := fun k hk => hblt k (List.mem_filter.mp hk).1
    have hA_i : i ∉ A := fun h => ((hA_char i).mp h).2.1 rfl
    have hA_d : ∀ k ∈ A, getL d1 k = getL data0 k := by
      intro k hk
      obtain ⟨_, hne, hnd⟩ := (hA_char k).mp hk
      rw [hg1 k, if_neg hne]
      exact undone_eq o zoom N data0 i (d, next) hinv hfresh k
        (by rw [← hd1len]; exact hA_lt1 k hk) hnd
    have hA_dd : ∀ k ∈ A, getL d1 k = getL d k := by
      intro k hk
      rw [hg1 k, if_neg ((hA_char k).mp hk).2.1]
    have hcnt_sum : cnt = (A.map fun k => (getL data0 k).num).sum := by
      rw [hcnt_def, countNbrs_eq, ← hA_def]
      rw [List.map_congr_left fun k hk => by rw [hA_d k hk]]
    have hnum_i : 1 ≤ (getL d i).num := by
      rw [hri]
      exact hnum i
    by_cases hc : (getL d i).num < (getL d i).num + cnt ∧ o.minPoints ≤ (getL d i).num + cnt
    · -- merge branch
      rw [if_pos hc]
      have hAne : A ≠ [] := by
        intro hnil
        rw [hnil] at hcnt_sum
        simp at hcnt_sum
        omega
      rw [absorb_spec zoom (encodeId i zoom N) nbrs d1
        ((getL d i).x * ((getL d i).num : ℚ)) ((getL d i).y * ((getL d i).num : ℚ))
        hnodup hblt, ← hA_def]
      simp only []
      set d2 := paintAbsorb zoom (encodeId i zoom N) d1 A with hd2_def
      have hg2 : ∀ k, getL d2 k =
          if k ∈ A ∧ k < d1.length then
            { getL d1 k with mark := some zoom, parent := (encodeId i zoom N : ℤ) }
          else getL d1 k := by
        intro k
        rw [hd2_def]
        exact paintAbsorb_getL zoom (encodeId i zoom N) A d1 k
      have hg2i : getL d2 i = { getL d i with mark := some zoom } := by
        rw [hg2 i, if_neg (fun h => hA_i h.1), hg1i]
      have hd2len : d2.length = d.length := by
        rw [hd2_def, paintAbsorb_length, hd1_def, setL_length]
      have hiid2 : i < d2.length := by rw [hd2len]; exact hii
      refine merge_inv o zoom N data0 hfresh i hi d next hinv hdi A hA_nodup hA_char hAne
        (setL d2 i { getL d2 i with parent := (encodeId i zoom N : ℤ) })
        (by rw [setL_length, hd2len]) ?_
        ⟨((getL d i).x * ((getL d i).num : ℚ) +
            (A.map fun k => (getL d1 k).x * ((getL d1 k).num : ℚ)).sum) /
            (((getL d i).num + cnt : ℕ) : ℚ),
          ((getL d i).y * ((getL d i).num : ℚ) +
            (A.map fun k => (getL d1 k).y * ((getL d1 k).num : ℚ)).sum) /
            (((getL d i).num + cnt : ℕ) : ℚ),
          none, encodeId i zoom N, -1, (getL d i).num + cnt⟩
        rfl rfl rfl ?_ ?_ ?_
      · -- the pointwise description of the mutated level
        intro k
        rw [getL_setL]
        by_cases hk : k = i
        · rw [if_pos ⟨hk, hiid2⟩, if_pos hk, hg2i]
        · rw [if_neg (fun h => hk h.1), if_neg hk, hg2 k]
          by_cases hk2 : k ∈ A
          · rw [if_pos ⟨hk2, hA_lt1 k hk2⟩, if_pos hk2, hA_dd k hk2]
          · rw [if_neg (fun h => hk2 h.1), if_neg hk2, hg1 k, if_neg hk]
      · -- count
        show (getL d i).num + cnt = ((i :: A).map fun k => (getL data0 k).num).sum
        rw [List.map_cons, List.sum_cons, ← hri, hcnt_sum]
      · -- weighted x
        show _ / ((((getL d i).num + cnt : ℕ) : ℚ)) * ((((getL d i).num + cnt : ℕ)) : ℚ) = _
        rw [div_mul_cancel₀]
        · rw [List.map_cons, List.sum_cons, ← hri,
            List.map_congr_left fun k hk => by rw [hA_d k hk]]
        · have hz : (getL d i).num + cnt ≠ 0 := by omega
          exact Nat.cast_ne_zero.mpr hz
      · -- weighted y
        show _ / ((((getL d i).num + cnt : ℕ) : ℚ)) * ((((getL d i).num + cnt : ℕ)) : ℚ) = _
        rw [div_mul_cancel₀]
        · rw [List.map_cons, List.sum_cons, ← hri,
            List.map_congr_left fun k hk => by rw [hA_d k hk]]
        · have hz : (getL d i).num + cnt ≠ 0 := by omega
          exact Nat.cast_ne_zero.mpr hz
    · -- no-merge branch
      rw [if_neg hc]
      have hgoal : ∀ du nu, du = paintCopy zoom d1 A →
          nu = next ++ (i :: A).map (fun k => markedRec zoom (getL data0 k)) →
          PassInv o zoom N data0 (i + 1) (du, nu) := by
        intro du nu hdu_eq hnu_eq
        subst hdu_eq hnu_eq
        refine copy_inv o zoom N data0 hfresh i hi d next hinv hdi A hA_nodup hA_char
          (paintCopy zoom d1 A) ?_ ?_
        · rw [paintCopy_length, hd1_def, setL_length]
        · intro k
          rw [paintCopy_getL]
          by_cases hk : k = i
          · rw [if_neg (fun h => hA_i (hk ▸ h.1)), hg1 k, if_pos hk, if_pos (Or.inl hk), hk]
            rfl
          · by_cases hk2 : k ∈ A
            · rw [if_pos ⟨hk2, hA_lt1 k hk2⟩, if_pos (Or.inr hk2), hg1 k, if_neg hk]
              rfl
            · rw [if_neg (fun h => hk2 h.1), hg1 k, if_neg hk,
                if_neg (fun h => h.elim hk hk2)]
      by_cases h1 : 1 < (getL d i).num + cnt
      · rw [if_pos h1]
        rw [copyFwd_spec zoom nbrs d1 (next ++ [getL d1 i]) hnodup hblt, ← hA_def]
        refine hgoal _ _ rfl ?_
        have hmapA : (A.map fun k => markedRec zoom (getL d1 k)) =
            A.map fun k => markedRec zoom (getL data0 k) :=
          List.map_congr_left fun k hk => by rw [hA_d k hk]
        have h3 : markedRec zoom (getL data0 i) = { getL d i with mark := some zoom } := by
          rw [← hri]
          rfl
        rw [List.append_assoc, List.singleton_append, List.map_cons, hmapA, hg1i, h3]
      · rw [if_neg h1]
        have hA_nil : A = [] := by
          cases hA : A with
          | nil => rfl
          | cons a t =>
            exfalso
            rw [hA] at hcnt_sum
            have ha : a ∈ A := by rw [hA]; exact List.mem_cons_self a t
            have h4 : 1 ≤ (getL data0 a).num := hnum a
            rw [List.map_cons, List.sum_cons] at hcnt_sum
            omega
        refine hgoal d1 (next ++ [getL d1 i]) ?_ ?_
        · rw [hA_nil]
          rfl
        · rw [hA_nil, List.map_cons, List.map_nil, hg1i]
          have h3 : markedRec zoom (getL data0 i) = { getL d i with mark := some zoom } := by
            rw [← hri]
            rfl
          rw [h3]

/-- The full `_cluster` scan establishes the invariant for the whole level. -/
theorem clusterPass_inv (o : Opts) (zoom N : ℕ) (data0 : List Rec)
    (hfresh : Fresh zoom data0) (hnum : ∀ k, 1 ≤ (getL data0 k).num) :
    PassInv o zoom N data0 data0.length (clusterPass o zoom N data0) := by
  have base : PassInv o zoom N data0 0 (data0, []) := by
    refine ⟨sameShape_refl data0, fun k => Or.inl rfl,
      fun k hk => absurd hk (Nat.not_lt_zero k), ⟨[], ?_, ?_, ?_, ?_, ?_⟩⟩
    · rfl
    · intro p hp
      simp at hp
    · exact List.Pairwise.nil
    · intro k
      rw [mem_listUnion]
      constructor
      · rintro ⟨p, hp, _⟩
        simp at hp
      · rintro ⟨_, hk2⟩
        exfalso
        have h := (hfresh k).1
        rw [h] at hk2
        cases hk2
    · intro k _
      exact Or.inl (hfresh k).2
  have main : ∀ j, j ≤ data0.length →
      PassInv o zoom N data0 j
        ((List.range j).foldl (processIdx o zoom N (buildRadius o zoom)) (data0, [])) := by
    intro j
    induction j with
    | zero => intro _; simpa using base
    | succ m ih =>
      intro hj
      rw [List.range_succ, List.foldl_append, List.foldl_cons, List.foldl_nil]
      exact processIdx_inv o zoom N data0 hfresh hnum m (by omega) _ (ih (by omega))
  exact main data0.length le_rfl

theorem clusterPass_shape (o : Opts) (zoom N : ℕ) (data0 : List Rec)
    (hfresh : Fresh zoom data0) (hnum : ∀ k, 1 ≤ (getL data0 k).num) :
    SameShape data0 (clusterPass o zoom N data0).1 :=
  (clusterPass_inv o zoom N data0 hfresh hnum).hshape

/-- Summing the per-record provenance sets recovers the level total. -/
theorem sum_by_srcs (data0 : List Rec) : ∀ (next : List Rec) (srcs : List (Finset ℕ)),
    srcs.length = next.length →
    (∀ p, p < next.length → (getL next p).num = ∑ k in srcs.getD p ∅, (getL data0 k).num) →
    srcs.Pairwise Disjoint →
    (next.map Rec.num).sum = ∑ k in listUnion srcs, (getL data0 k).num := by
  intro next
  induction next with
  | nil =>
    intro srcs hlen _ _
    cases srcs with
    | nil => simp [listUnion]
    | cons s ss => simp at hlen
  | cons r t ih =>
    intro srcs hlen hnums hdisj
    cases srcs with
    | nil => simp at hlen
    | cons s ss =>
      have h0 : r.num = ∑ k in s, (getL data0 k).num := by
        have h := hnums 0 (by simp)
        simpa [getL_cons_zero] using h
      have ht : (t.map Rec.num).sum = ∑ k in listUnion ss, (getL data0 k).num := by
        refine ih ss (by simpa using hlen) ?_ (List.pairwise_cons.mp hdisj).2
        intro p hp
        have h := hnums (p + 1) (by simpa using Nat.succ_lt_succ hp)
        simpa [getL_cons_succ] using h
      have hdd : Disjoint s (listUnion ss) := by
        rw [Finset.disjoint_right]
        intro x hx hxs
        obtain ⟨p, hp, hxp⟩ := (mem_listUnion ss x).mp hx
        have hmem : ss.getD p ∅ ∈ ss := getD_mem ss p hp ∅
        exact (Finset.disjoint_right.mp ((List.pairwise_cons.mp hdisj).1 _ hmem)) hxp hxs
      show r.num + (t.map Rec.num).sum = ∑ k in s ∪ listUnion ss, (getL data0 k).num
      rw [Finset.sum_union hdd, h0, ht]

/-- Count conservation of one pass. -/
theorem clusterPass_sum (o : Opts) (zoom N : ℕ) (data0 : List Rec)
    (hfresh : Fresh zoom data0) (hnum : ∀ k, 1 ≤ (getL data0 k).num) :
    sumNum (clusterPass o zoom N data0).2 = sumNum data0 := by
  have hinv := clusterPass_inv o zoom N data0 hfresh hnum
  obtain ⟨srcs, hs⟩ := hinv.hsrc
  have hnums : ∀ p, p < (clusterPass o zoom N data0).2.length →
      (getL (clusterPass o zoom N data0).2 p).num = ∑ k in srcs.getD p ∅, (getL data0 k).num := by
    intro p hp
    rcases hs.hrec p hp with ⟨k, _, hse, hre⟩ | ⟨a, h⟩
    · rw [hse, Finset.sum_singleton, hre, markedRec_num]
    · exact h.2.2.2.2.2.2.2.2.1
  have hmain := sum_by_srcs data0 (clusterPass o zoom N data0).2 srcs hs.hlen hnums hs.hdisj
  have huni : listUnion srcs = Finset.range data0.length := by
    ext k
    rw [hs.hcover k, Finset.mem_range]
    constructor
    · exact fun h => h.1
    · intro h
      exact ⟨h, hinv.hdone k h⟩
  rw [sumNum, hmain, huni, ← sumNum_eq_sum_range]

/-- The output level of a pass is fresh for the next pass down. -/
theorem clusterPass_newLevel (o : Opts) (zoom N : ℕ) (data0 : List Rec)
    (hfresh : Fresh zoom data0) (hnum : ∀ k, 1 ≤ (getL data0 k).num) :
    NewLevel zoom (clusterPass o zoom N data0).2 := by
  have hinv := clusterPass_inv o zoom N data0 hfresh hnum
  obtain ⟨srcs, hs⟩ := hinv.hsrc
  intro k
  by_cases hk : k < (clusterPass o zoom N data0).2.length
  · rcases hs.hrec k hk with ⟨kk, hkk, _, hre⟩ | ⟨a, h⟩
    · rw [hre, markedRec_mark, markedRec_parent]
      exact ⟨Or.inr rfl, (hfresh kk).2⟩
    · exact ⟨Or.inl h.2.2.1, h.2.2.2.1⟩
  · rw [getL_oob _ k (Nat.le_of_not_lt hk)]
    exact ⟨Or.inl rfl, rfl⟩

/-- Every record of the output level has a positive count. -/
theorem clusterPass_nums (o : Opts) (zoom N : ℕ) (data0 : List Rec)
    (hfresh : Fresh zoom data0) (hnum : ∀ k, 1 ≤ (getL data0 k).num) :
    ∀ k, 1 ≤ (getL (clusterPass o zoom N data0).2 k).num := by
  have hinv := clusterPass_inv o zoom N data0 hfresh hnum
  obtain ⟨srcs, hs⟩ := hinv.hsrc
  intro k
  by_cases hk : k < (clusterPass o zoom N data0).2.length
  · rcases hs.hrec k hk with ⟨kk, _, _, hre⟩ | ⟨a, h⟩
    · rw [hre, markedRec_num]
      exact hnum kk
    · have hsum := h.2.2.2.2.2.2.2.2.1
      have hmem := h.2.2.2.2.2.1
      rw [hsum]
      have hle : ∀ j ∈ srcs.getD k ∅, 0 ≤ (getL data0 j).num := fun j _ => Nat.zero_le _
      calc 1 ≤ (getL data0 a).num := hnum a
        _ ≤ ∑ j in srcs.getD k ∅, (getL data0 j).num := Finset.single_le_sum hle hmem
  · rw [getL_oob _ k (Nat.le_of_not_lt hk)]
    exact Nat.le_refl 1

/-- The output level stays inside any box containing the input level. -/
theorem clusterPass_box (o : Opts) (zoom N : ℕ) (data0 : List Rec)
    (hfresh : Fresh zoom data0) (hnum : ∀ k, 1 ≤ (getL data0 k).num)
    (x1 y1 x2 y2 : ℚ) (hbox : InBoxL x1 y1 x2 y2 data0) :
    InBoxL x1 y1 x2 y2 (clusterPass o zoom N data0).2 := by
  have hinv := clusterPass_inv o zoom N data0 hfresh hnum
  obtain ⟨srcs, hs⟩ := hinv.hsrc
  intro p hp
  rcases hs.hrec p hp with ⟨kk, hkk, _, hre⟩ | ⟨a, h⟩
  · rw [hre, markedRec_x, markedRec_y]
    exact hbox kk hkk
  · set rec := getL (clusterPass o zoom N data0).2 p
    set s := srcs.getD p ∅ with hs_def
    have hslt : ∀ k2 ∈ s, k2 < data0.length := by
      intro k2 hk2
      have h5 : s = childSet (clusterPass o zoom N data0).1 rec.rid := h.2.2.2.2.1
      rw [h5] at hk2
      have h6 := (mem_childSet _ _ k2).mp hk2
      have h7 := hinv.hshape.1
      omega
    have hnumrec : rec.num = ∑ k in s, (getL data0 k).num := h.2.2.2.2.2.2.2.2.1
    have hx := h.2.2.2.2.2.2.2.2.2.1
    have hy := h.2.2.2.2.2.2.2.2.2.2
    have hnum1 : 1 ≤ rec.num := by
      rw [hnumrec]
      have hle : ∀ j ∈ s, 0 ≤ (getL data0 j).num := fun j _ => Nat.zero_le _
      calc 1 ≤ (getL data0 a).num := hnum a
        _ ≤ _ := Finset.single_le_sum hle h.2.2.2.2.2.1
    have hpos : (0 : ℚ) < (rec.num : ℚ) := by
      exact_mod_cast Nat.pos_of_ne_zero (by omega)
    have hcast : (rec.num : ℚ) = ∑ k in s, ((getL data0 k).num : ℚ) := by
      rw [hnumrec]
      push_cast
      rfl
    refine ⟨?_, ?_, ?_, ?_⟩
    · have hlow : x1 * (rec.num : ℚ) ≤ rec.x * (rec.num : ℚ) := by
        rw [hx, hcast, Finset.mul_sum]
        refine Finset.sum_le_sum fun k hk => ?_
        exact mul_le_mul_of_nonneg_right (hbox k (hslt k hk)).1 (by positivity)
      exact le_of_mul_le_mul_right hlow hpos
    · have hhigh : rec.x * (rec.num : ℚ) ≤ x2 * (rec.num : ℚ) := by
        rw [hx, hcast, Finset.mul_sum]
        refine Finset.sum_le_sum fun k hk => ?_
        exact mul_le_mul_of_nonneg_right (hbox k (hslt k hk)).2.1 (by positivity)
      exact le_of_mul_le_mul_right hhigh hpos
    · have hlow : y1 * (rec.num : ℚ) ≤ rec.y * (rec.num : ℚ) := by
        rw [hy, hcast, Finset.mul_sum]
        refine Finset.sum_le_sum fun k hk => ?_
        exact mul_le_mul_of_nonneg_right (hbox k (hslt k hk)).2.2.1 (by positivity)
      exact le_of_mul_le_mul_right hlow hpos
    · have hhigh : rec.y * (rec.num : ℚ) ≤ y2 * (rec.num : ℚ) := by
        rw [hy, hcast, Finset.mul_sum]
        refine Finset.sum_le_sum fun k hk => ?_
        exact mul_le_mul_of_nonneg_right (hbox k (hslt k hk)).2.2.2 (by positivity)
      exact le_of_mul_le_mul_right hhigh hpos

/-! ## Level lookups and the build loop -/

theorem lookup_cons_self (o : Opts) (pts : List (ℚ × ℚ)) (w : ℕ) (dw : List Rec)
    (rest : List (ℕ × List Rec)) :
    lookupLevel ⟨o, pts, (w, dw) :: rest⟩ w = some dw := by
  simp [lookupLevel, List.find?_cons]

theorem lookup_cons_ne (o : Opts) (pts : List (ℚ × ℚ)) (w : ℕ) (dw : List Rec)
    (rest : List (ℕ × List Rec)) (z : ℕ) (h : z ≠ w) :
    lookupLevel ⟨o, pts, (w, dw) :: rest⟩ z = lookupLevel ⟨o, pts, rest⟩ z := by
  have hb : (w == z) = false := by
    rw [beq_eq_false_iff_ne]
    exact fun e => h e.symm
  simp [lookupLevel, List.find?_cons, hb]

theorem lookup_of_keys (o : Opts) (pts : List (ℚ × ℚ)) :
    ∀ (lv : List (ℕ × List Rec)), (lv.map Prod.fst).Nodup →
    ∀ w dw, (w, dw) ∈ lv → lookupLevel ⟨o, pts, lv⟩ w = some dw := by
  intro lv
  induction lv with
  | nil => intro _ w dw h; simp at h
  | cons hd rest ih =>
    intro hnd w dw hmem
    obtain ⟨w1, d1⟩ := hd
    rcases List.mem_cons.mp hmem with h | h
    · injection h with h1 h2
      subst h1
      subst h2
      exact lookup_cons_self o pts w dw rest
    · have hne : w ≠ w1 := by
        intro he
        have : w1 ∈ rest.map Prod.fst := by
          rw [← he]
          exact List.mem_map.mpr ⟨(w, dw), h, rfl⟩
        rw [List.map_cons] at hnd
        exact (List.nodup_cons.mp hnd).1 this
      rw [lookup_cons_ne o pts w1 d1 rest w hne]
      exact ih (List.nodup_cons.mp (by rw [List.map_cons] at hnd; exact hnd)).2 w dw h

theorem consecDesc_lt : ∀ (zs : List ℕ) (t : ℕ), ConsecDesc t zs → ∀ w ∈ zs, w < t := by
  intro zs
  induction zs with
  | nil => intro t _ w h; simp at h
  | cons z rest ih =>
    intro t hcd w hw
    obtain ⟨hz, hrest⟩ := hcd
    rcases List.mem_cons.mp hw with h | h
    · omega
    · have := ih z hrest w h
      omega

theorem consecDesc_nodup : ∀ (zs : List ℕ) (t : ℕ), ConsecDesc t zs → (t :: zs).Nodup := by
  intro zs
  induction zs with
  | nil => intro t _; simp
  | cons z rest ih =>
    intro t hcd
    obtain ⟨hz, hrest⟩ := hcd
    have htail := ih z hrest
    rw [List.nodup_cons]
    refine ⟨?_, htail⟩
    intro hmem
    rcases List.mem_cons.mp hmem with h | h
    · omega
    · have := consecDesc_lt rest z hrest t h
      omega

theorem consec_range' (lo : ℕ) : ∀ n : ℕ, ConsecDesc (lo + n) ((List.range' lo n).reverse) := by
  intro n
  induction n with
  | zero => exact trivial
  | succ m ih =>
    rw [List.range'_1_concat, List.reverse_append, List.reverse_singleton,
      List.singleton_append]
    exact ⟨rfl, ih⟩

theorem zoomList_consec (o : Opts) : ConsecDesc (o.maxZoom + 1) (zoomList o) := by
  by_cases h : o.minZoom ≤ o.maxZoom + 1
  · have h1 := consec_range' o.minZoom (o.maxZoom + 1 - o.minZoom)
    have he : o.minZoom + (o.maxZoom + 1 - o.minZoom) = o.maxZoom + 1 := by omega
    rw [he] at h1
    rw [zoomList]
    exact h1
  · have he : o.maxZoom + 1 - o.minZoom = 0 := by omega
    rw [zoomList, he]
    exact trivial

theorem mem_zoomList (o : Opts) (w : ℕ) :
    w ∈ zoomList o ↔ o.minZoom ≤ w ∧ w ≤ o.maxZoom := by
  rw [zoomList, List.mem_reverse, List.mem_range']
  constructor
  · rintro ⟨i, hi, rfl⟩
    omega
  · intro h
    exact ⟨w - o.minZoom, by omega, by omega⟩

theorem initialRecsAux_length (i : ℕ) (pts : List (ℚ × ℚ)) :
    (initialRecsAux i pts).length = pts.length := by
  induction pts generalizing i with
  | nil => rfl
  | cons p t ih => simp [initialRecsAux, ih]

theorem initialRecsAux_getL (pts : List (ℚ × ℚ)) :
    ∀ (start j : ℕ), j < pts.length →
    getL (initialRecsAux start pts) j =
      ⟨(pts.getD j (0, 0)).1, (pts.getD j (0, 0)).2, none, start + j, -1, 1⟩ := by
  induction pts with
  | nil => intro start j h; simp at h
  | cons p t ih =>
    intro start j hj
    cases j with
    | zero => simp [initialRecsAux, getL_cons_zero]
    | succ m =>
      show getL (initialRecsAux (start + 1) t) m = _
      rw [ih (start + 1) m (by simpa using hj)]
      have : start + 1 + m = start + (m + 1) := by omega
      rw [this]
      rfl

theorem initialRecs_getL (pts : List (ℚ × ℚ)) (j : ℕ) (h : j < pts.length) :
    getL (initialRecs pts) j =
      ⟨(pts.getD j (0, 0)).1, (pts.getD j (0, 0)).2, none, j, -1, 1⟩ := by
  rw [initialRecs, initialRecsAux_getL pts 0 j h]
  simp

theorem initialRecs_length (pts : List (ℚ × ℚ)) : (initialRecs pts).length = pts.length :=
  initialRecsAux_length 0 pts

theorem initialRecsAux_sum (i : ℕ) (pts : List (ℚ × ℚ)) :
    sumNum (initialRecsAux i pts) = pts.length := by
  induction pts generalizing i with
  | nil => rfl
  | cons p t ih =>
    show 1 + sumNum (initialRecsAux (i + 1) t) = t.length + 1
    rw [ih (i + 1)]
    omega

theorem initialRecs_newLevel (pts : List (ℚ × ℚ)) (t : ℕ) : NewLevel t (initialRecs pts) := by
  intro k
  by_cases hk : k < pts.length
  · rw [initialRecs_getL pts k hk]
    exact ⟨Or.inl rfl, rfl⟩
  · rw [getL_oob _ k (by rw [initialRecs_length]; omega)]
    exact ⟨Or.inl rfl, rfl⟩

theorem initialRecs_nums (pts : List (ℚ × ℚ)) : ∀ k, 1 ≤ (getL (initialRecs pts) k).num := by
  intro k
  by_cases hk : k < pts.length
  · rw [initialRecs_getL pts k hk]
  · rw [getL_oob _ k (by rw [initialRecs_length]; omega)]
    exact Nat.le_refl 1

theorem getD_mem_of_lt {α : Type} (l : List α) (j : ℕ) (h : j < l.length) (dflt : α) :
    l.getD j dflt ∈ l := getD_mem l j h dflt

theorem initialRecs_box (pts : List (ℚ × ℚ)) (x1 y1 x2 y2 : ℚ)
    (hbox : ∀ p ∈ pts, x1 ≤ p.1 ∧ p.1 ≤ x2 ∧ y1 ≤ p.2 ∧ p.2 ≤ y2) :
    InBoxL x1 y1 x2 y2 (initialRecs pts) := by
  intro k hk
  rw [initialRecs_length] at hk
  rw [initialRecs_getL pts k hk]
  exact hbox (pts.getD k (0, 0)) (getD_mem pts k hk (0, 0))

theorem inBoxL_of_shape {x1 y1 x2 y2 : ℚ} {d d' : List Rec} (h : SameShape d d')
    (hb : InBoxL x1 y1 x2 y2 d) : InBoxL x1 y1 x2 y2 d' := by
  intro k hk
  rw [(h.2 k).1, (h.2 k).2.1]
  exact hb k (by rw [h.1]; exact hk)

theorem sumNum_initialRecs (pts : List (ℚ × ℚ)) : sumNum (initialRecs pts) = pts.length :=
  initialRecsAux_sum 0 pts

theorem newLevel_fresh (t : ℕ) (d : List Rec) (h : NewLevel (t + 1) d) : Fresh t d := by
  intro k
  obtain ⟨hm, hp⟩ := h k
  refine ⟨?_, hp⟩
  rcases hm with hm | hm
  · rw [Done, hm]
    rfl
  · rw [Done, hm]
    simp [markLe]

/-- Basic facts of every level produced by the build loop. -/
theorem buildLevels_basic (o : Opts) (pts : List (ℚ × ℚ)) :
    ∀ (zs : List ℕ) (topKey : ℕ) (cur : List Rec),
    ConsecDesc topKey zs →
    NewLevel topKey cur →
    (∀ k, 1 ≤ (getL cur k).num) →
    sumNum cur = pts.length →
    (∀ x1 y1 x2 y2 : ℚ,
      (∀ p ∈ pts, x1 ≤ p.1 ∧ p.1 ≤ x2 ∧ y1 ≤ p.2 ∧ p.2 ≤ y2) →
      InBoxL x1 y1 x2 y2 cur) →
    ((buildLevels o pts.length zs cur topKey).map Prod.fst = topKey :: zs) ∧
    (∃ dtop rest, buildLevels o pts.length zs cur topKey = (topKey, dtop) :: rest ∧
      SameShape cur dtop) ∧
    (∀ zw ∈ buildLevels o pts.length zs cur topKey,
      zw.1 ≤ topKey ∧ LevelBasic pts.length pts zw.2) := by
  intro zs
  induction zs with
  | nil =>
    intro topKey cur _ _ hnums hsum hbox
    refine ⟨rfl, ⟨cur, [], rfl, sameShape_refl cur⟩, ?_⟩
    intro zw hzw
    rw [show buildLevels o pts.length [] cur topKey = [(topKey, cur)] from rfl] at hzw
    rw [List.mem_singleton] at hzw
    subst hzw
    exact ⟨le_rfl, ⟨hsum, hnums, fun a b c e hb => hbox a b c e hb⟩⟩
  | cons z rest ih =>
    intro topKey cur hcd hnew hnums hsum hbox
    obtain ⟨hz, hrest⟩ := hcd
    have hfr : Fresh z cur := newLevel_fresh z cur (hz ▸ hnew)
    have hstep : buildLevels o pts.length (z :: rest) cur topKey =
        (topKey, (clusterPass o z pts.length cur).1) ::
          buildLevels o pts.length rest (clusterPass o z pts.length cur).2 z := rfl
    have hshape := clusterPass_shape o z pts.length cur hfr hnums
    have hnew' := clusterPass_newLevel o z pts.length cur hfr hnums
    have hnums' := clusterPass_nums o z pts.length cur hfr hnums
    have hsum' : sumNum (clusterPass o z pts.length cur).2 = pts.length := by
      rw [clusterPass_sum o z pts.length cur hfr hnums, hsum]
    have hbox' : ∀ x1 y1 x2 y2 : ℚ,
        (∀ p ∈ pts, x1 ≤ p.1 ∧ p.1 ≤ x2 ∧ y1 ≤ p.2 ∧ p.2 ≤ y2) →
        InBoxL x1 y1 x2 y2 (clusterPass o z pts.length cur).2 := by
      intro a b c e hb
      exact clusterPass_box o z pts.length cur hfr hnums a b c e (hbox a b c e hb)
    obtain ⟨hkeys, _, hmem⟩ := ih z (clusterPass o z pts.length cur).2 hrest hnew' hnums' hsum' hbox'
    refine ⟨?_, ⟨(clusterPass o z pts.length cur).1, _, hstep, hshape⟩, ?_⟩
    · rw [hstep, List.map_cons, hkeys]
    · intro zw hzw
      rw [hstep] at hzw
      rcases List.mem_cons.mp hzw with h | h
      · subst h
        refine ⟨le_rfl, ?_, ?_, ?_⟩
        · rw [sumNum_of_shape hshape, hsum]
        · intro k
          rw [(hshape.2 k).2.2.2]
          exact hnums k
        · intro a b c e hb
          exact inBoxL_of_shape hshape (hbox a b c e hb)
      · have := hmem zw h
        exact ⟨by omega, this.2⟩

/-- Everything `load` builds, in basic form: the level keys, the identity of
the top level, and the per-level conservation facts. -/
theorem load_basic (pc : PC) (pts : List (ℚ × ℚ)) :
    ((load pc pts).levels.map Prod.fst = (pc.o.maxZoom + 1) :: zoomList pc.o) ∧
    (∃ dtop rest, (load pc pts).levels = (pc.o.maxZoom + 1, dtop) :: rest ∧
      SameShape (initialRecs pts) dtop) ∧
    (∀ zw ∈ (load pc pts).levels, zw.1 ≤ pc.o.maxZoom + 1 ∧ LevelBasic pts.length pts zw.2) := by
  have h := buildLevels_basic pc.o pts (zoomList pc.o) (pc.o.maxZoom + 1) (initialRecs pts)
    (zoomList_consec pc.o) (initialRecs_newLevel pts (pc.o.maxZoom + 1)) (initialRecs_nums pts)
    (sumNum_initialRecs pts) (fun a b c e hb => initialRecs_box pts a b c e hb)
  exact h

/-- Looking up any in-range zoom after `load` succeeds and yields a level
with the basic conservation facts. -/
theorem load_lookup (pc : PC) (pts : List (ℚ × ℚ)) (w : ℕ)
    (hw1 : pc.o.minZoom ≤ w) (hw2 : w ≤ pc.o.maxZoom + 1) :
    ∃ dw, lookupLevel (load pc pts) w = some dw ∧ LevelBasic pts.length pts dw := by
  obtain ⟨hkeys, _, hmem⟩ := load_basic pc pts
  have hnd : ((load pc pts).levels.map Prod.fst).Nodup := by
    rw [hkeys]
    exact consecDesc_nodup _ _ (zoomList_consec pc.o)
  have hwmem : w ∈ (load pc pts).levels.map Prod.fst := by
    rw [hkeys]
    rcases Nat.lt_or_ge w (pc.o.maxZoom + 1) with h | h
    · exact List.mem_cons_of_mem _ ((mem_zoomList pc.o w).mpr ⟨hw1, by omega⟩)
    · have he : w = pc.o.maxZoom + 1 := by omega
      rw [he]
      exact List.mem_cons_self _ _
  obtain ⟨zw, hzw, hfst⟩ := List.mem_map.mp hwmem
  obtain ⟨w1, dw⟩ := zw
  have hw1w : w1 = w := hfst
  subst hw1w
  refine ⟨dw, ?_, (hmem (w1, dw) hzw).2⟩
  exact lookup_of_keys pc.o pts (load pc pts).levels hnd w1 dw hzw

theorem limitZoom_bounds (o : Opts) (zoom : ℤ) (hmz : o.minZoom ≤ o.maxZoom + 1) :
    o.minZoom ≤ limitZoom o zoom ∧ limitZoom o zoom ≤ o.maxZoom + 1 := by
  unfold limitZoom
  rcases le_total zoom ((o.maxZoom : ℤ) + 1) with h | h
  · rw [min_eq_left h]
    rcases le_total (o.minZoom : ℤ) zoom with h2 | h2
    · rw [max_eq_right h2]
      omega
    · rw [max_eq_left h2]
      omega
  · rw [min_eq_right h]
    have h2 : (o.minZoom : ℤ) ≤ (o.maxZoom : ℤ) + 1 := by exact_mod_cast hmz
    rw [max_eq_right h2]
    omega

theorem limitZoom_high (o : Opts) (zoom : ℤ) (hmz : o.minZoom ≤ o.maxZoom + 1)
    (hz : (o.maxZoom : ℤ) + 1 ≤ zoom) : limitZoom o zoom = o.maxZoom + 1 := by
  unfold limitZoom
  rw [min_eq_right hz]
  have h2 : (o.minZoom : ℤ) ≤ (o.maxZoom : ℤ) + 1 := by exact_mod_cast hmz
  rw [max_eq_right h2]
  omega

theorem sumNum_eq_map_range (d : List Rec) :
    ((List.range d.length).map fun j => (getL d j).num).sum = sumNum d := by
  induction d with
  | nil => rfl
  | cons r t ih =>
    rw [List.length_cons, List.range_succ_eq_map, List.map_cons, List.map_map, List.sum_cons]
    have h1 : ((List.range t.length).map ((fun j => (getL (r :: t) j).num) ∘ Nat.succ)).sum
        = ((List.range t.length).map fun j => (getL t j).num).sum := by
      congr 1
    rw [h1, ih]
    simp [sumNum, getL_cons_zero]

theorem entryCount_entryOf (r : Rec) (h : 1 ≤ r.num) :
    entryCount (entryOf r) = r.num := by
  rw [entryOf]
  by_cases h1 : 1 < r.num
  · rw [if_pos h1]
    rfl
  · rw [if_neg h1]
    have : r.num = 1 := by omega
    rw [this]
    rfl

/-- C1: for every loaded point set of size N, every zoom, and every bounding
box covering all the points, `getClusters` succeeds and the `point_count`s of
its results sum to N — no point is lost or double-counted at any level. -/
theorem C1_count_conservation (pc : PC) (pts : List (ℚ × ℚ)) (zoom : ℤ)
    (x1 y1 x2 y2 : ℚ)
    (hmz : pc.o.minZoom ≤ pc.o.maxZoom + 1)
    (hbox : ∀ p ∈ pts, x1 ≤ p.1 ∧ p.1 ≤ x2 ∧ y1 ≤ p.2 ∧ p.2 ≤ y2) :
    ∃ es, getClusters (load pc pts) x1 y1 x2 y2 zoom = some es ∧
      (es.map entryCount).sum = pts.length := by
  obtain ⟨hwb1, hwb2⟩ := limitZoom_bounds pc.o zoom hmz
  obtain ⟨dw, hlk, hlb⟩ := load_lookup pc pts (limitZoom pc.o zoom) hwb1 hwb2
  refine ⟨(rangeIdx dw x1 y1 x2 y2).map fun j => entryOf (getL dw j), ?_, ?_⟩
  · simp only [getClusters]
    rw [show (load pc pts).o = pc.o from rfl, hlk]
    rfl
  · have hrange : rangeIdx dw x1 y1 x2 y2 = List.range dw.length := by
      rw [rangeIdx]
      apply List.filter_eq_self.mpr
      intro j hj
      have hjlt := List.mem_range.mp hj
      have hb := hlb.hbox x1 y1 x2 y2 hbox j hjlt
      simp only [Bool.and_eq_true, decide_eq_true_eq]
      exact ⟨⟨⟨hb.1, hb.2.1⟩, hb.2.2.1⟩, hb.2.2.2⟩
    rw [hrange, List.map_map]
    have hcongr : (List.range dw.length).map (entryCount ∘ fun j => entryOf (getL dw j))
        = (List.range dw.length).map fun j => (getL dw j).num := by
      apply List.map_congr_left
      intro j _
      exact entryCount_entryOf (getL dw j) (hlb.hnum j)
    rw [hcongr, sumNum_eq_map_range, hlb.hsum]

/-- C6: above the max zoom (the query zoom clamps to `maxZoom + 1`),
`getClusters` returns exactly the unmerged original input points lying in the
bounding box — each result is a plain point entry carrying its original input
index, and the selected indices are precisely the in-box input indices. -/
theorem C6_above_max_zoom (pc : PC) (pts : List (ℚ × ℚ)) (zoom : ℤ)
    (x1 y1 x2 y2 : ℚ)
    (hmz : pc.o.minZoom ≤ pc.o.maxZoom + 1)
    (hz : (pc.o.maxZoom : ℤ) + 1 ≤ zoom) :
    getClusters (load pc pts) x1 y1 x2 y2 zoom =
      some ((rangeIdx (initialRecs pts) x1 y1 x2 y2).map Entry.point) ∧
    rangeIdx (initialRecs pts) x1 y1 x2 y2 =
      (List.range pts.length).filter fun j =>
        decide (x1 ≤ (pts.getD j (0, 0)).1) && decide ((pts.getD j (0, 0)).1 ≤ x2) &&
        decide (y1 ≤ (pts.getD j (0, 0)).2) && decide ((pts.getD j (0, 0)).2 ≤ y2) := by
  obtain ⟨_, ⟨dtop, rest, heq, hshape⟩, _⟩ := load_basic pc pts
  have hw : limitZoom pc.o zoom = pc.o.maxZoom + 1 := limitZoom_high pc.o zoom hmz hz
  have hlk : lookupLevel (load pc pts) (pc.o.maxZoom + 1) = some dtop := by
    rw [lookupLevel, heq]
    simp [List.find?_cons]
  constructor
  · simp only [getClusters]
    rw [show (load pc pts).o = pc.o from rfl, hw, hlk]
    simp only [Option.map_some']
    congr 1
    rw [rangeIdx_congr hshape]
    apply List.map_congr_left
    intro j hj
    have hjlt : j < pts.length := by
      have := List.mem_range.mp (List.mem_filter.mp hj).1
      rw [initialRecs_length] at this
      exact this
    have hnum : (getL dtop j).num = 1 := by
      rw [(hshape.2 j).2.2.2, initialRecs_getL pts j hjlt]
    have hrid : (getL dtop j).rid = j := by
      rw [(hshape.2 j).2.2.1, initialRecs_getL pts j hjlt]
    simp [entryOf, hnum, hrid]
  · rw [rangeIdx, initialRecs_length]
    apply List.filter_congr
    intro j hj
    rw [initialRecs_getL pts j (List.mem_range.mp hj)]

/-! ## Ownership machinery for the leaf queries -/

theorem pairwise_disjoint_getD (l : List (Finset ℕ)) (h : l.Pairwise Disjoint)
    (p q : ℕ) (hpq : p ≠ q) : Disjoint (l.getD p ∅) (l.getD q ∅) := by
  by_cases hp : p < l.length
  · by_cases hq : q < l.length
    · rw [List.getD_eq_getElem?_getD, List.getElem?_eq_getElem hp, Option.getD_some,
        List.getD_eq_getElem?_getD, List.getElem?_eq_getElem hq, Option.getD_some]
      rcases Nat.lt_or_ge p q with hlt | hge
      · have := List.pairwise_iff_get.mp h ⟨p, hp⟩ ⟨q, hq⟩ hlt
        simpa using this
      · have hlt : q < p := by omega
        have := List.pairwise_iff_get.mp h ⟨q, hq⟩ ⟨p, hp⟩ hlt
        exact (by simpa using this : Disjoint (l[q]) (l[p])).symm
    · rw [List.getD_eq_getElem?_getD (l) q, List.getElem?_eq_none (by omega), Option.getD_none]
      exact Finset.disjoint_empty_right _
  · rw [List.getD_eq_getElem?_getD, List.getElem?_eq_none (by omega), Option.getD_none]
    exact Finset.disjoint_empty_left _

/-- The decode/encode round trip for in-range zooms (used by the children
and leaf queries; the stored tag is `zoom + 1`). -/
theorem decode_encodeId (a zoom N : ℕ) (h : zoom ≤ 30) :
    getOriginId N (encodeId a zoom N) = a ∧
    getOriginZoom N (encodeId a zoom N) = zoom + 1 := by
  have he : ((encodeId a zoom N : ℤ) - N) = 32 * a + (zoom + 1) := by
    push_cast [encodeId]; ring
  constructor
  · rw [getOriginId, he, Int.fdiv_eq_ediv _ (by norm_num)]
    omega
  · rw [getOriginZoom, he, Int.tmod_eq_emod (by positivity) (by norm_num)]
    omega

theorem getChildren_eq_ite (pc : PC) (cid : ℤ) (d : List Rec)
    (h1 : originLevel pc cid = some d) :
    getChildren pc cid =
      (if (d.length : ℤ) ≤ getOriginId pc.points.length cid then none
       else if (childIdxs pc cid d).isEmpty then none
       else some ((childIdxs pc cid d).map fun k => entryOf (getL d k))) := by
  have hu : getChildren pc cid =
      (match originLevel pc cid with
      | none => none
      | some d =>
        if (d.length : ℤ) ≤ getOriginId pc.points.length cid then none
        else if (childIdxs pc cid d).isEmpty then none
        else some ((childIdxs pc cid d).map fun k => entryOf (getL d k))) := rfl
  rw [hu, h1]

theorem getChildren_eq_some (pc : PC) (cid : ℤ) (d : List Rec)
    (h1 : originLevel pc cid = some d)
    (h2 : getOriginId pc.points.length cid < (d.length : ℤ))
    (h3 : childIdxs pc cid d ≠ []) :
    getChildren pc cid = some ((childIdxs pc cid d).map fun k => entryOf (getL d k)) := by
  rw [getChildren_eq_ite pc cid d h1, if_neg (not_le.mpr h2),
    if_neg (fun h => h3 (List.isEmpty_iff.mp h))]

/-- `getChildren` on the id of a cluster anchored at `a` with origin zoom
`oz < 32` returns exactly its `kidsOf` children. -/
theorem getChildren_cluster (pc : PC) (a oz : ℕ) (d : List Rec)
    (hoz1 : 1 ≤ oz) (hoz32 : oz < 32)
    (hd : lookupLevel pc oz = some d) (ha : a < d.length)
    (hne : kidsOf pc.o.radius (encodeId a (oz - 1) pc.points.length) a oz d ≠ []) :
    getChildren pc (encodeId a (oz - 1) pc.points.length : ℤ) =
      some ((kidsOf pc.o.radius (encodeId a (oz - 1) pc.points.length) a oz d).map
        fun k => entryOf (getL d k)) := by
  obtain ⟨hoid, hozz'⟩ := decode_encodeId a (oz - 1) pc.points.length (by omega)
  have hozz : getOriginZoom pc.points.length (encodeId a (oz - 1) pc.points.length) = (oz : ℤ) := by
    rw [hozz']
    omega
  have h1 : originLevel pc (encodeId a (oz - 1) pc.points.length : ℤ) = some d := by
    rw [originLevel, hozz, if_neg (by omega)]
    rw [show ((oz : ℤ)).toNat = oz from rfl]
    exact hd
  have hci : childIdxs pc (encodeId a (oz - 1) pc.points.length : ℤ) d =
      kidsOf pc.o.radius (encodeId a (oz - 1) pc.points.length) a oz d := by
    rw [childIdxs, kidsOf, hoid, childRadius, hozz]
    rw [if_neg (by omega)]
    norm_num
  rw [getChildren_eq_some pc _ d h1 (by rw [hoid]; exact_mod_cast ha)
    (by rw [hci]; exact hne), hci]

theorem goodRec_transfer (pc : PC) {z z' : ℕ} {r r' : Rec} {S : Finset ℕ}
    (h : GoodRec pc z r S) (hz : z' ≤ z) (hn : r'.num = r.num) (hr : r'.rid = r.rid) :
    GoodRec pc z' r' S := by
  cases h with
  | leaf _ _ h1 h2 =>
    rw [← hr]
    exact GoodRec.leaf z' r' (by omega) (by rw [hr]; exact h2)
  | cluster _ _ oz a d f hnum hzo hoz hoz1 hoz32 hrid hd ha hk2 hsum hkids hdisj =>
    rw [← hr]
    exact GoodRec.cluster z' r' oz a d f (by omega) (by omega) hoz hoz1 hoz32
      (hr.trans hrid) hd ha (by rw [hr]; exact hk2) (by rw [hn, hr]; exact hsum)
      (by rw [hr]; exact hkids) (by rw [hr]; exact hdisj)

theorem goodRec_num_pos (pc : PC) {z : ℕ} {r : Rec} {S : Finset ℕ}
    (h : GoodRec pc z r S) : 1 ≤ r.num := by
  cases h with
  | leaf _ _ h1 _ => omega
  | cluster _ _ oz a d f hnum _ _ _ _ _ _ _ _ _ _ => omega

theorem goodRec_leaf_set (pc : PC) {z : ℕ} {r : Rec} {S : Finset ℕ}
    (h : GoodRec pc z r S) (h1 : r.num = 1) :
    S = {r.rid} ∧ r.rid < pc.points.length := by
  cases h with
  | leaf _ _ _ h2 => exact ⟨rfl, h2⟩
  | cluster _ _ oz a d f hnum _ _ _ _ _ _ _ _ _ _ => exact absurd h1 (by omega)

theorem kidsOf_nodup (radius : ℚ) (cid a oz : ℕ) (d : List Rec) :
    (kidsOf radius cid a oz d).Nodup :=
  (withinIdx_nodup d _ _ _).filter _

theorem goodRec_card (pc : PC) {z : ℕ} {r : Rec} {S : Finset ℕ}
    (h : GoodRec pc z r S) : S.card = r.num := by
  induction h with
  | leaf _ rec h1 _ => simp [h1]
  | cluster z rec oz a d f hnum hzo hoz hoz1 hoz32 hrid hd ha hk2 hsum hkids hdisj ih =>
    rw [listUnionBy_card _ f (kidsOf_nodup _ _ _ _ _) hdisj]
    have hc : (kidsOf pc.o.radius rec.rid a oz d).map (fun k => (f k).card) =
        (kidsOf pc.o.radius rec.rid a oz d).map fun k => (getL d k).num :=
      List.map_congr_left fun k hk => ih k hk
    rw [hc, ← hsum]

theorem atLimit_inf (len : ℕ) : atLimit len LimArg.inf = false := rfl

theorem childLoop_nil (limit : LimArg) (off : ℤ)
    (R : ℤ → List ℕ → ℤ → Option (List ℕ × ℤ)) (acc : List ℕ) (skipped : ℤ) :
    childLoop limit off R [] acc skipped = some (acc, skipped) := rfl

theorem childLoop_point_eq (limit : LimArg) (off : ℤ)
    (R : ℤ → List ℕ → ℤ → Option (List ℕ × ℤ)) (idx : ℕ) (rest : List Entry)
    (acc : List ℕ) (skipped : ℤ) :
    childLoop limit off R (.point idx :: rest) acc skipped =
      (if skipped < off then
        (if atLimit acc.length limit then some (acc, skipped + 1)
         else childLoop limit off R rest acc (skipped + 1))
      else
        (if atLimit (acc ++ [idx]).length limit then some (acc ++ [idx], skipped)
         else childLoop limit off R rest (acc ++ [idx]) skipped)) := rfl

theorem childLoop_cluster_eq (limit : LimArg) (off : ℤ)
    (R : ℤ → List ℕ → ℤ → Option (List ℕ × ℤ)) (ccid : ℕ) (x y : ℚ) (cnt : ℕ)
    (rest : List Entry) (acc : List ℕ) (skipped : ℤ) :
    childLoop limit off R (.cluster ccid x y cnt :: rest) acc skipped =
      (if skipped + (cnt : ℤ) ≤ off then
        (if atLimit acc.length limit then some (acc, skipped + cnt)
         else childLoop limit off R rest acc (skipped + cnt))
      else
        (match R (ccid : ℤ) acc skipped with
        | none => none
        | some st =>
          if atLimit st.1.length limit then some st
          else childLoop limit off R rest st.1 st.2)) := rfl

theorem appendLeaves_succ (pc : PC) (limit : LimArg) (off : ℤ) (f0 : ℕ) (cid : ℤ)
    (acc : List ℕ) (skipped : ℤ) :
    appendLeaves pc limit off (f0 + 1) cid acc skipped =
      (match getChildren pc cid with
      | none => none
      | some children =>
        childLoop limit off (appendLeaves pc limit off f0) children acc skipped) := rfl

/-- Core of the leaf walk with `limit = Infinity` and `offset = 0`: given
good children with known recursive leaf harvests, the child loop appends
the concatenated harvests, preserving `skipped = 0`, with the right count,
ownership and no duplicates. -/
theorem childLoop_leaves (pc : PC) (oz : ℕ) (d : List Rec) (f : ℕ → Finset ℕ) (fuel : ℕ) :
    ∀ (ks : List ℕ),
    (∀ k ∈ ks, GoodRec pc oz (getL d k) (f k)) →
    (∀ k ∈ ks, 1 < (getL d k).num → ∀ acc, ∃ lf,
      appendLeaves pc LimArg.inf 0 fuel ((getL d k).rid : ℤ) acc 0 = some (acc ++ lf, 0) ∧
      lf.Nodup ∧ lf.length = (getL d k).num ∧ lf.toFinset = f k) →
    ks.Pairwise (fun k1 k2 => Disjoint (f k1) (f k2)) →
    ∀ acc, ∃ lf,
      childLoop LimArg.inf 0 (appendLeaves pc LimArg.inf 0 fuel)
          (ks.map fun k => entryOf (getL d k)) acc 0 = some (acc ++ lf, 0) ∧
      lf.Nodup ∧ lf.length = (ks.map fun k => (getL d k).num).sum ∧
      lf.toFinset = listUnionBy ks f := by
  intro ks
  induction ks with
  | nil =>
    intro _ _ _ acc
    refine ⟨[], ?_, List.nodup_nil, rfl, rfl⟩
    rw [List.append_nil, List.map_nil, childLoop_nil]
  | cons k ks ih =>
    intro hG hR hdisj acc
    have hGk := hG k (List.mem_cons_self k ks)
    have hnum1 := goodRec_num_pos pc hGk
    have hhead : ∀ k2 ∈ ks, Disjoint (f k) (f k2) := (List.pairwise_cons.mp hdisj).1
    have ih2 := ih (fun j hj => hG j (List.mem_cons_of_mem k hj))
      (fun j hj => hR j (List.mem_cons_of_mem k hj)) (List.pairwise_cons.mp hdisj).2
    rw [List.map_cons]
    by_cases hn : 1 < (getL d k).num
    · have hek : entryOf (getL d k) =
          .cluster (getL d k).rid (getL d k).x (getL d k).y (getL d k).num := by
        rw [entryOf, if_pos hn]
      obtain ⟨lfk, hlfk, hndk, hlenk, htfk⟩ := hR k (List.mem_cons_self k ks) hn acc
      obtain ⟨lf2, hcl2, hnd2, hlen2, htf2⟩ := ih2 (acc ++ lfk)
      refine ⟨lfk ++ lf2, ?_, ?_, ?_, ?_⟩
      · rw [hek, childLoop_cluster_eq]
        rw [if_neg (by omega)]
        rw [hlfk]
        show (if atLimit (acc ++ lfk).length LimArg.inf = true then some (acc ++ lfk, (0 : ℤ))
          else childLoop LimArg.inf 0 (appendLeaves pc LimArg.inf 0 fuel)
            (ks.map fun j => entryOf (getL d j)) (acc ++ lfk) 0) =
          some (acc ++ (lfk ++ lf2), 0)
        rw [atLimit_inf, if_neg (by simp), hcl2, List.append_assoc]
      · refine List.Nodup.append hndk hnd2 ?_
        intro x hx1 hx2
        have h1 : x ∈ f k := htfk ▸ List.mem_toFinset.mpr hx1
        have h2 : x ∈ listUnionBy ks f := htf2 ▸ List.mem_toFinset.mpr hx2
        obtain ⟨k2, hk2, hxk2⟩ := (mem_listUnionBy ks f x).mp h2
        exact Finset.disjoint_left.mp (hhead k2 hk2) h1 hxk2
      · rw [List.length_append, hlenk, hlen2, List.map_cons, List.sum_cons]
      · rw [List.toFinset_append, htfk, htf2]
        rfl
    · have hn1 : (getL d k).num = 1 := by omega
      obtain ⟨hfk, _⟩ := goodRec_leaf_set pc hGk hn1
      have hek : entryOf (getL d k) = .point (getL d k).rid := by
        rw [entryOf, if_neg hn]
      obtain ⟨lf2, hcl2, hnd2, hlen2, htf2⟩ := ih2 (acc ++ [(getL d k).rid])
      have hnotin : (getL d k).rid ∉ lf2 := by
        intro hmem
        have h2 : (getL d k).rid ∈ listUnionBy ks f := htf2 ▸ List.mem_toFinset.mpr hmem
        obtain ⟨k2, hk2, hxk2⟩ := (mem_listUnionBy ks f _).mp h2
        have h1 : (getL d k).rid ∈ f k := by
          rw [hfk]
          exact Finset.mem_singleton_self _
        exact Finset.disjoint_left.mp (hhead k2 hk2) h1 hxk2
      refine ⟨(getL d k).rid :: lf2, ?_, ?_, ?_, ?_⟩
      · rw [hek, childLoop_point_eq]
        rw [if_neg (lt_irrefl 0), atLimit_inf, if_neg (by simp), hcl2,
          List.append_assoc, List.singleton_append]
      · exact List.nodup_cons.mpr ⟨hnotin, hnd2⟩
      · rw [List.length_cons, hlen2, List.map_cons, List.sum_cons, hn1]
        omega
      · rw [List.toFinset_cons, htf2]
        rw [show listUnionBy (k :: ks) f = f k ∪ listUnionBy ks f from rfl, hfk]
        rw [Finset.insert_eq]

/-- A good cluster record's full leaf harvest: with `limit = Infinity` and
`offset = 0`, `_appendLeaves` on its id appends exactly its owned original
points (`point_count` many, no duplicates), leaving `skipped = 0`. -/
theorem appendLeaves_spec (pc : PC) {z : ℕ} {rec : Rec} {S : Finset ℕ}
    (h : GoodRec pc z rec S) :
    ∀ (fuel : ℕ) (acc : List ℕ), pc.o.maxZoom + 2 ≤ z + fuel → 1 < rec.num →
    ∃ lf, appendLeaves pc LimArg.inf 0 fuel (rec.rid : ℤ) acc 0 = some (acc ++ lf, 0) ∧
      lf.Nodup ∧ lf.length = rec.num ∧ lf.toFinset = S := by
  induction h with
  | leaf _ rec h1 _ =>
    intro fuel acc hfuel hnum
    exact absurd h1 (by omega)
  | cluster z rec oz a d f hnum hzo hoz hoz1 hoz32 hrid hd ha hk2 hsum hkids hdisj ih =>
    intro fuel acc hfuel _
    cases fuel with
    | zero => exact absurd hfuel (by omega)
    | succ f0 =>
      have hne : kidsOf pc.o.radius rec.rid a oz d ≠ [] := by
        intro hcon
        rw [hcon] at hk2
        simp at hk2
      have hgc : getChildren pc (rec.rid : ℤ) =
          some ((kidsOf pc.o.radius rec.rid a oz d).map fun k => entryOf (getL d k)) := by
        rw [hrid]
        exact getChildren_cluster pc a oz d hoz1 hoz32 hd ha (hrid ▸ hne)
      obtain ⟨lf, hcl, hnd, hlen, htf⟩ :=
        childLoop_leaves pc oz d f f0 (kidsOf pc.o.radius rec.rid a oz d) hkids
          (fun k hk hn1 acc2 => ih k hk f0 acc2 (by omega) hn1) hdisj acc
      refine ⟨lf, ?_, hnd, by rw [hlen, ← hsum], htf⟩
      rw [appendLeaves_succ, hgc]
      exact hcl

/-- Every level the build loop stores consists of well-formed records owning
pairwise disjoint sets of original points, relative to the final instance
state (`upper` accumulates the already-built coarser levels; `maxZoom ≤ 30`
keeps every stored origin zoom inside the 5-bit id encoding). -/
theorem buildLevels_good (o : Opts) (pts : List (ℚ × ℚ)) (hmx : o.maxZoom ≤ 30) :
    ∀ (zs : List ℕ) (topKey : ℕ) (cur : List Rec) (upper : List (ℕ × List Rec)),
    ConsecDesc topKey zs →
    topKey ≤ o.maxZoom + 1 →
    NewLevel topKey cur →
    (∀ k, 1 ≤ (getL cur k).num) →
    ((upper ++ buildLevels o pts.length zs cur topKey).map Prod.fst).Nodup →
    LevelOwn ⟨o, pts, upper ++ buildLevels o pts.length zs cur topKey⟩ topKey cur →
    ∀ zw ∈ buildLevels o pts.length zs cur topKey,
      LevelOwn ⟨o, pts, upper ++ buildLevels o pts.length zs cur topKey⟩ zw.1 zw.2 := by
  intro zs
  induction zs with
  | nil =>
    intro topKey cur upper _ _ _ _ _ hLO zw hzw
    have hz1 : zw = (topKey, cur) := by
      have h : zw ∈ [(topKey, cur)] := hzw
      simpa using h
    subst hz1
    exact hLO
  | cons z rest ih =>
    intro topKey cur upper hcd htk hnew hnums hnd hLO
    obtain ⟨hz1, hrest⟩ := hcd
    have hnew' : NewLevel (z + 1) cur := by rw [hz1]; exact hnew
    have hfr : Fresh z cur := newLevel_fresh z cur hnew'
    obtain ⟨d1, d2, hpr⟩ : ∃ d1 d2, clusterPass o z pts.length cur = (d1, d2) := ⟨_, _, rfl⟩
    have hinv := clusterPass_inv o z pts.length cur hfr hnums
    have hshape : SameShape cur d1 := by
      have h := hinv.hshape
      rw [hpr] at h
      exact h
    obtain ⟨srcs, hs0⟩ := hinv.hsrc
    have hs : SrcsOK o z pts.length cur d1 d2 srcs := by
      rw [hpr] at hs0
      exact hs0
    have hstep : buildLevels o pts.length (z :: rest) cur topKey =
        (topKey, d1) :: buildLevels o pts.length rest d2 z := by
      have h0 : buildLevels o pts.length (z :: rest) cur topKey =
          (topKey, (clusterPass o z pts.length cur).1) ::
            buildLevels o pts.length rest (clusterPass o z pts.length cur).2 z := rfl
      rw [h0, hpr]
    have hlist : upper ++ buildLevels o pts.length (z :: rest) cur topKey =
        (upper ++ [(topKey, d1)]) ++ buildLevels o pts.length rest d2 z := by
      rw [hstep, List.append_assoc, List.singleton_append]
    obtain ⟨osets, hGo, hDo⟩ := hLO
    have hA : LevelOwn ⟨o, pts, upper ++ buildLevels o pts.length (z :: rest) cur topKey⟩
        topKey d1 := by
      refine ⟨osets, ?_, ?_⟩
      · intro k hk
        have hk' : k < cur.length := by rw [hshape.1]; exact hk
        exact goodRec_transfer _ (hGo k hk') le_rfl (hshape.2 k).2.2.2 (hshape.2 k).2.2.1
      · intro j k hj hk hjk
        exact hDo j k (by rw [hshape.1]; exact hj) (by rw [hshape.1]; exact hk) hjk
    have hlk : lookupLevel ⟨o, pts, upper ++ buildLevels o pts.length (z :: rest) cur topKey⟩
        (z + 1) = some d1 := by
      apply lookup_of_keys o pts _ hnd
      rw [hstep, ← hz1]
      exact List.mem_append.mpr (Or.inr (List.mem_cons_self _ _))
    have hks_lt : ∀ p, p < d2.length → ∀ k ∈ srcs.getD p ∅, k < cur.length := by
      intro p hp k hk
      have hU : k ∈ listUnion srcs :=
        (mem_listUnion srcs k).mpr ⟨p, by rw [hs.hlen]; exact hp, hk⟩
      exact ((hs.hcover k).mp hU).1
    have hB : LevelOwn ⟨o, pts, upper ++ buildLevels o pts.length (z :: rest) cur topKey⟩ z
        d2 := by
      refine ⟨fun p => (srcs.getD p ∅).biUnion osets, ?_, ?_⟩
      · intro p hp
        show GoodRec ⟨o, pts, upper ++ buildLevels o pts.length (z :: rest) cur topKey⟩ z
          (getL d2 p) ((srcs.getD p ∅).biUnion osets)
        rcases hs.hrec p hp with ⟨k0, hk0, hseq, hre⟩ |
          ⟨a, halen, hrid, hmark, hparent, hset, hain, hcard2, hwithin, hnumsum, hxw, hyw⟩
        · have hsing : (srcs.getD p ∅).biUnion osets = osets k0 := by
            rw [hseq, Finset.singleton_biUnion]
          rw [hsing]
          refine goodRec_transfer _ (hGo k0 hk0) (by omega) ?_ ?_
          · rw [hre]
            rfl
          · rw [hre]
            rfl
        · have hradius : o.radius / (((z + 1 : ℕ) : ℚ) - 1) = buildRadius o z := by
            rw [buildRadius]
            congr 1
            push_cast
            ring
          have hwin : withinIdx d1 (getL d1 a).x (getL d1 a).y (buildRadius o z)
              = withinIdx cur (getL cur a).x (getL cur a).y (buildRadius o z) := by
            rw [(hshape.2 a).1, (hshape.2 a).2.1]
            exact withinIdx_congr hshape _ _ _
          have hmemk : ∀ k, k ∈ kidsOf o.radius (getL d2 p).rid a (z + 1) d1 ↔
              (k ∈ withinIdx cur (getL cur a).x (getL cur a).y (buildRadius o z) ∧
                (getL d1 k).parent = ((getL d2 p).rid : ℤ)) := by
            intro k
            rw [kidsOf, List.mem_filter, hradius, hwin, beq_iff_eq]
          have hklN : (kidsOf o.radius (getL d2 p).rid a (z + 1) d1).Nodup :=
            kidsOf_nodup _ _ _ _ _
          have hklF : (kidsOf o.radius (getL d2 p).rid a (z + 1) d1).toFinset =
              srcs.getD p ∅ := by
            rw [hset]
            ext k
            rw [List.mem_toFinset, hmemk k, mem_childSet]
            constructor
            · rintro ⟨hw, hpar⟩
              exact ⟨hshape.1 ▸ withinIdx_lt cur _ _ _ k hw, hpar⟩
            · rintro ⟨hlt, hpar⟩
              refine ⟨?_, hpar⟩
              have hks : k ∈ srcs.getD p ∅ := by
                rw [hset, mem_childSet]
                exact ⟨hlt, hpar⟩
              exact hwithin k hks
          have hklLen : (kidsOf o.radius (getL d2 p).rid a (z + 1) d1).length =
              (srcs.getD p ∅).card := by
            rw [← List.toFinset_card_of_nodup hklN, hklF]
          have hnum1 : 1 < (getL d2 p).num := by
            have hone : ∀ k ∈ srcs.getD p ∅, 1 ≤ (getL cur k).num := fun k _ => hnums k
            have hcl := Finset.card_nsmul_le_sum (srcs.getD p ∅)
              (fun k => (getL cur k).num) 1 hone
            simp only [smul_eq_mul, mul_one] at hcl
            omega
          have hGc := @GoodRec.cluster
            ⟨o, pts, upper ++ buildLevels o pts.length (z :: rest) cur topKey⟩
            z (getL d2 p) (z + 1) a d1 osets hnum1 (by omega)
            (by show z + 1 ≤ o.maxZoom + 1; omega) (by omega)
            (by omega)
            (by rw [hrid]; rfl) hlk (hshape.1 ▸ halen)
            (by rw [hklLen]; exact hcard2)
            (by
              have hmapeq : (kidsOf o.radius (getL d2 p).rid a (z + 1) d1).map
                  (fun k => (getL d1 k).num) =
                  (kidsOf o.radius (getL d2 p).rid a (z + 1) d1).map
                    fun k => (getL cur k).num :=
                List.map_congr_left fun k _ => (hshape.2 k).2.2.2
              rw [hmapeq, ← List.sum_toFinset _ hklN, hklF]
              exact hnumsum)
            (by
              intro k hk
              have hkF : k ∈ srcs.getD p ∅ := by
                rw [← hklF]
                exact List.mem_toFinset.mpr hk
              have hklt : k < cur.length := hks_lt p hp k hkF
              exact goodRec_transfer _ (hGo k hklt) (by omega) (hshape.2 k).2.2.2
                (hshape.2 k).2.2.1)
            (by
              apply hklN.pairwise_of_forall_ne
              intro k1 hk1 k2 hk2 hne12
              have h1 : k1 ∈ srcs.getD p ∅ := by
                rw [← hklF]
                exact List.mem_toFinset.mpr hk1
              have h2 : k2 ∈ srcs.getD p ∅ := by
                rw [← hklF]
                exact List.mem_toFinset.mpr hk2
              exact hDo k1 k2 (hks_lt p hp k1 h1) (hks_lt p hp k2 h2) hne12)
          rwa [listUnionBy_eq_biUnion _ osets _ hklF] at hGc
      · intro p q hp hq hpq
        rw [Finset.disjoint_biUnion_left]
        intro k1 hk1
        rw [Finset.disjoint_biUnion_right]
        intro k2 hk2
        have hd12 := pairwise_disjoint_getD srcs hs.hdisj p q hpq
        have hne12 : k1 ≠ k2 := by
          intro he
          subst he
          exact absurd hk2 (Finset.disjoint_left.mp hd12 hk1)
        exact hDo k1 k2 (hks_lt p hp k1 hk1) (hks_lt q hq k2 hk2) hne12
    have hnd' : (((upper ++ [(topKey, d1)]) ++
        buildLevels o pts.length rest d2 z).map Prod.fst).Nodup := by
      rw [← hlist]
      exact hnd
    have hLO' : LevelOwn ⟨o, pts, (upper ++ [(topKey, d1)]) ++
        buildLevels o pts.length rest d2 z⟩ z d2 := by
      rw [← hlist]
      exact hB
    have hnew2 : NewLevel z d2 := by
      have h := clusterPass_newLevel o z pts.length cur hfr hnums
      rw [hpr] at h
      exact h
    have hnums2 : ∀ k, 1 ≤ (getL d2 k).num := by
      have h := clusterPass_nums o z pts.length cur hfr hnums
      rw [hpr] at h
      exact h
    have hrec := ih z d2 (upper ++ [(topKey, d1)]) hrest (by omega) hnew2 hnums2 hnd' hLO'
    intro zw hzw
    have hzw' : zw ∈ (topKey, d1) :: buildLevels o pts.length rest d2 z := by
      rw [← hstep]
      exact hzw
    rcases List.mem_cons.mp hzw' with he | hm
    · subst he
      exact hA
    · have h := hrec zw hm
      rw [← hlist] at h
      exact h

/-- After `load`, every stored level consists of well-formed records owning
pairwise disjoint original-point sets. -/
theorem load_good (pc0 : PC) (pts : List (ℚ × ℚ)) (hmx : pc0.o.maxZoom ≤ 30) :
    ∀ zw ∈ (load pc0 pts).levels, LevelOwn (load pc0 pts) zw.1 zw.2 := by
  have hnd : (((load pc0 pts).levels).map Prod.fst).Nodup := by
    rw [(load_basic pc0 pts).1]
    exact consecDesc_nodup _ _ (zoomList_consec pc0.o)
  have hLO : LevelOwn (load pc0 pts) (pc0.o.maxZoom + 1) (initialRecs pts) := by
    refine ⟨fun k => {k}, ?_, ?_⟩
    · intro k hk
      rw [initialRecs_length] at hk
      have hg : getL (initialRecs pts) k =
          ⟨(pts.getD k (0, 0)).1, (pts.getD k (0, 0)).2, none, k, -1, 1⟩ :=
        initialRecs_getL pts k hk
      have hleaf := @GoodRec.leaf (load pc0 pts) (pc0.o.maxZoom + 1)
        (getL (initialRecs pts) k) (by rw [hg]) (by rw [hg]; exact hk)
      have hr : (getL (initialRecs pts) k).rid = k := by rw [hg]
      rwa [hr] at hleaf
    · intro j k _ _ hjk
      exact Finset.disjoint_singleton.mpr hjk
  have h := buildLevels_good pc0.o pts hmx (zoomList pc0.o) (pc0.o.maxZoom + 1)
    (initialRecs pts) [] (zoomList_consec pc0.o) le_rfl
    (initialRecs_newLevel pts (pc0.o.maxZoom + 1)) (initialRecs_nums pts) hnd hLO
  exact h

/-- C7: for every cluster record stored in a built hierarchy (with
`maxZoom ≤ 30` so that ids decode, and `minZoom ≥ 1` so that every
neighbour radius the hierarchy ever uses is finite),
`getLeaves(id, Infinity, 0)` succeeds and returns exactly `point_count`
original points with no duplicates. -/
theorem C7_getLeaves_exact (pc0 : PC) (pts : List (ℚ × ℚ)) (z : ℕ) (dw : List Rec) (k : ℕ)
    (hmn : 1 ≤ pc0.o.minZoom) (hmx30 : pc0.o.maxZoom ≤ 30)
    (hzdw : (z, dw) ∈ (load pc0 pts).levels)
    (hk : k < dw.length)
    (hnum : 1 < (getL dw k).num) :
    ∃ lf, getLeaves (load pc0 pts) ((getL dw k).rid : ℤ) LimArg.inf (some 0) = some lf ∧
      lf.length = (getL dw k).num ∧ lf.Nodup := by
  obtain ⟨osets, hGd, _⟩ := load_good pc0 pts hmx30 (z, dw) hzdw
  have hG := hGd k hk
  obtain ⟨lf, hap, hnd, hlen, _⟩ := appendLeaves_spec (load pc0 pts) hG
    (pc0.o.maxZoom + 2) []
    (by
      have ho : (load pc0 pts).o.maxZoom = pc0.o.maxZoom := rfl
      rw [ho]
      omega)
    hnum
  refine ⟨lf, ?_, hlen, hnd⟩
  have hgl : getLeaves (load pc0 pts) ((getL dw k).rid : ℤ) LimArg.inf (some 0) =
      (appendLeaves (load pc0 pts) LimArg.inf 0 (pc0.o.maxZoom + 2)
        ((getL dw k).rid : ℤ) [] 0).map fun st => st.1 := rfl
  rw [hgl, hap]
  rfl

/-- C7 witness: the worked instance's cluster 8 (stored at level 4 with
`point_count = 2`) yields exactly its two distinct original points. -/
theorem C7_witness :
    ∃ lf, getLeaves (load (construct exOpts) exPts) ((getL exLevel4 0).rid : ℤ)
        LimArg.inf (some 0) = some lf ∧
      lf.length = (getL exLevel4 0).num ∧ lf.Nodup :=
  C7_getLeaves_exact (construct exOpts) exPts 4 exLevel4 0 (by decide) (by decide)
    (by with_unfolding_all decide) (by with_unfolding_all decide)
    (by with_unfolding_all decide)

theorem C1_witness :
    ∃ es, getClusters (load (construct exOpts) exPts) 0 0 100 100 2 = some es ∧
      (es.map entryCount).sum = exPts.length :=
  C1_count_conservation (construct exOpts) exPts 2 0 0 100 100 (by decide)
    (by with_unfolding_all decide)

/-- C8: `getChildren` consults the level at the decoded origin zoom, uses
the neighbour radius `radius / (originZoom - 1)` (no scaling function is
applied), returns exactly the neighbours of the decoded anchor whose parent
field equals the cluster id (projected as in `getClusters`), and fails in
exactly three cases: no tree at the decoded zoom, anchor index out of
bounds, or empty child set. -/
theorem C8_getChildren_cases (pc : PC) (cid : ℤ) :
    (getChildren pc cid = none ↔
      originLevel pc cid = none ∨
      ∃ d, originLevel pc cid = some d ∧
        ((d.length : ℤ) ≤ getOriginId pc.points.length cid ∨ childIdxs pc cid d = [])) ∧
    (∀ d, originLevel pc cid = some d →
      getOriginId pc.points.length cid < (d.length : ℤ) →
      childIdxs pc cid d ≠ [] →
      getChildren pc cid = some ((childIdxs pc cid d).map fun k => entryOf (getL d k))) ∧
    childRadius pc cid = pc.o.radius / ((getOriginZoom pc.points.length cid : ℚ) - 1) := by
  have hnone : originLevel pc cid = none → getChildren pc cid = none := by
    intro h
    have hu : getChildren pc cid =
        (match originLevel pc cid with
        | none => none
        | some d =>
          if (d.length : ℤ) ≤ getOriginId pc.points.length cid then none
          else if (childIdxs pc cid d).isEmpty then none
          else some ((childIdxs pc cid d).map fun k => entryOf (getL d k))) := rfl
    rw [hu, h]
  have hsome : ∀ d, originLevel pc cid = some d →
      getChildren pc cid =
        (if (d.length : ℤ) ≤ getOriginId pc.points.length cid then none
         else if (childIdxs pc cid d).isEmpty then none
         else some ((childIdxs pc cid d).map fun k => entryOf (getL d k))) := by
    intro d h
    have hu : getChildren pc cid =
        (match originLevel pc cid with
        | none => none
        | some d =>
          if (d.length : ℤ) ≤ getOriginId pc.points.length cid then none
          else if (childIdxs pc cid d).isEmpty then none
          else some ((childIdxs pc cid d).map fun k => entryOf (getL d k))) := rfl
    rw [hu, h]
  refine ⟨?_, ?_, rfl⟩
  · cases ho : originLevel pc cid with
    | none =>
      simp only [hnone ho, ho]
      simp
    | some d =>
      rw [hsome d ho]
      by_cases h1 : (d.length : ℤ) ≤ getOriginId pc.points.length cid
      · rw [if_pos h1]
        constructor
        · intro _
          exact Or.inr ⟨d, rfl, Or.inl h1⟩
        · intro _
          rfl
      · rw [if_neg h1]
        by_cases h2 : (childIdxs pc cid d).isEmpty
        · rw [if_pos h2]
          constructor
          · intro _
            exact Or.inr ⟨d, rfl, Or.inr (List.isEmpty_iff.mp h2)⟩
          · intro _
            rfl
        · rw [if_neg h2]
          constructor
          · intro hcon
            exact absurd hcon (by simp)
          · intro hcon
            rcases hcon with hcon | ⟨d1, hd1, hcase⟩
            · exact absurd hcon (by simp)
            · injection hd1 with hd1
              subst hd1
              rcases hcase with hcase | hcase
              · exact absurd hcase h1
              · exact absurd (List.isEmpty_iff.mpr hcase) h2
  · intro d ho hlt hne
    rw [hsome d ho, if_neg (not_le.mpr hlt), if_neg (fun h => hne (List.isEmpty_iff.mp h))]

theorem expandLoop_none (pc : PC) (f : ℕ) (cid ez : ℤ)
    (hgc : getChildren pc cid = none) :
    expandLoop pc (f + 1) cid ez = none := by
  simp [expandLoop, hgc]

theorem expandLoop_break (pc : PC) (f : ℕ) (cid ez : ℤ) (children : List Entry)
    (hgc : getChildren pc cid = some children) (hlen : children.length ≠ 1) :
    expandLoop pc (f + 1) cid ez = some (ez + 1) := by
  simp [expandLoop, hgc, hlen]

theorem expandLoop_desc (pc : PC) (f : ℕ) (cid ez : ℤ) (c : ℕ) (x y : ℚ) (n : ℕ)
    (hgc : getChildren pc cid = some [Entry.cluster c x y n]) :
    expandLoop pc (f + 1) cid ez = expandLoop pc f (c : ℤ) (ez + 1) := by
  simp [expandLoop, hgc]

theorem expandLoop_point (pc : PC) (f : ℕ) (cid ez : ℤ) (idx : ℕ)
    (hgc : getChildren pc cid = some [Entry.point idx]) :
    expandLoop pc (f + 1) cid ez = if f = 0 then some (ez + 1) else none := by
  simp [expandLoop, hgc]

/-- Bounds of the `getClusterExpansionZoom` loop: from start zoom `ez` with
`fuel` remaining iterations, a successful run lands in `[ez, ez + fuel]`
(strictly above `ez` when at least one iteration runs), and it either
exhausted the fuel or broke out at the cluster reached after `res - ez - 1`
single-child descents from the start cluster, whose child count is
different from 1. -/
theorem expandLoop_bounds (pc : PC) :
    ∀ (fuel : ℕ) (cid ez res : ℤ),
    expandLoop pc fuel cid ez = some res →
    ez ≤ res ∧ res ≤ ez + fuel ∧
    (1 ≤ fuel → ez + 1 ≤ res) ∧
    (res = ez + fuel ∨
      ∃ (n : ℕ) (c : ℤ) (kids : List Entry), res = ez + 1 + n ∧
        stepsTo pc cid c n ∧ getChildren pc c = some kids ∧ kids.length ≠ 1) := by
  intro fuel
  induction fuel with
  | zero =>
    intro cid ez res h
    have he : ez = res := by
      have : (some ez : Option ℤ) = some res := h
      injection this
    subst he
    exact ⟨le_rfl, by omega, fun hcon => absurd hcon (by omega), Or.inl (by omega)⟩
  | succ f ih =>
    intro cid ez res h
    cases hgc : getChildren pc cid with
    | none =>
      rw [expandLoop_none pc f cid ez hgc] at h
      exact absurd h (by simp)
    | some children =>
      by_cases hlen : children.length ≠ 1
      · rw [expandLoop_break pc f cid ez children hgc hlen] at h
        have he : ez + 1 = res := by injection h
        subst he
        refine ⟨by omega, by omega, fun _ => by omega,
          Or.inr ⟨0, cid, children, by omega, rfl, hgc, hlen⟩⟩
      · push_neg at hlen
        cases children with
        | nil => simp at hlen
        | cons e rest =>
          cases rest with
          | cons e2 rest2 => simp at hlen
          | nil =>
            cases e with
            | point idx =>
              rw [expandLoop_point pc f cid ez idx hgc] at h
              by_cases hf : f = 0
              · rw [if_pos hf] at h
                have he : ez + 1 = res := by injection h
                subst he
                exact ⟨by omega, by omega, fun _ => by omega, Or.inl (by omega)⟩
              · rw [if_neg hf] at h
                exact absurd h (by simp)
            | cluster c1 xx yy cnt =>
              rw [expandLoop_desc pc f cid ez c1 xx yy cnt hgc] at h
              obtain ⟨h1, h2, _, h4⟩ := ih (c1 : ℤ) (ez + 1) res h
              refine ⟨by omega, by omega, fun _ => by omega, ?_⟩
              rcases h4 with h4 | ⟨n, c, kids, hre, hst, hgk, hlk⟩
              · exact Or.inl (by omega)
              · exact Or.inr ⟨n + 1, c, kids, by push_cast; omega,
                  ⟨c1, xx, yy, cnt, hgc, hst⟩, hgk, hlk⟩

/-- C9: for a cluster id whose decoded origin zoom is within the built
range, a successful `getClusterExpansionZoom` result is at least the id's
origin zoom and at most `maxZoom + 1`; and unless the loop ran out of zooms
(terminal result `maxZoom + 1`), the cluster reached at the returned zoom —
the one `res - originZoom` single-child descents lead to from the queried
id — has child count different from 1. -/
theorem C9_expansion_zoom (pc : PC) (cid : ℤ) (res : ℤ)
    (hoz : getOriginZoom pc.points.length cid ≤ (pc.o.maxZoom : ℤ) + 1)
    (hres : getClusterExpansionZoom pc cid = some res) :
    getOriginZoom pc.points.length cid ≤ res ∧
    res ≤ (pc.o.maxZoom : ℤ) + 1 ∧
    (res = (pc.o.maxZoom : ℤ) + 1 ∨
      ∃ (n : ℕ) (c : ℤ) (kids : List Entry),
        res = getOriginZoom pc.points.length cid + n ∧
        stepsTo pc cid c n ∧ getChildren pc c = some kids ∧ kids.length ≠ 1) := by
  have hres' : expandLoop pc
      (((pc.o.maxZoom : ℤ) + 1 - (getOriginZoom pc.points.length cid - 1)).toNat) cid
      (getOriginZoom pc.points.length cid - 1) = some res := hres
  obtain ⟨h1, h2, h3, h4⟩ := expandLoop_bounds pc _ _ _ _ hres'
  have hf1 : 1 ≤ (((pc.o.maxZoom : ℤ) + 1 - (getOriginZoom pc.points.length cid - 1)).toNat) := by
    omega
  refine ⟨by have := h3 hf1; omega, by omega, ?_⟩
  rcases h4 with h | ⟨n, c, kids, hre, hst, hgk, hlk⟩
  · exact Or.inl (by omega)
  · exact Or.inr ⟨n, c, kids, by omega, hst, hgk, hlk⟩

/-- C9 witness: the worked instance's cluster 8 (origin zoom 5) expands at
zoom 5 = `maxZoom + 1`; its own children (count 2 ≠ 1, reached after zero
descents) stop the loop there. -/
theorem C9_witness :
    getOriginZoom exPC.points.length 8 ≤ 5 ∧
    (5 : ℤ) ≤ (exPC.o.maxZoom : ℤ) + 1 ∧
    ((5 : ℤ) = (exPC.o.maxZoom : ℤ) + 1 ∨
      ∃ (n : ℕ) (c : ℤ) (kids : List Entry),
        (5 : ℤ) = getOriginZoom exPC.points.length 8 + n ∧
        stepsTo exPC 8 c n ∧ getChildren exPC c = some kids ∧ kids.length ≠ 1) :=
  C9_expansion_zoom exPC 8 5 (by with_unfolding_all decide)
    (by with_unfolding_all decide)

/-- C8 witness: the worked instance's cluster 8 lives at origin zoom 5;
its children are the two merged points. -/
theorem C8_witness :
    getChildren exPC 8 =
      some ((childIdxs exPC 8 exLevel5).map fun k => entryOf (getL exLevel5 k)) :=
  (C8_getChildren_cases exPC 8).2.1 exLevel5 (by with_unfolding_all decide)
    (by with_unfolding_all decide) (by with_unfolding_all decide)

theorem C6_witness :
    getClusters (load (construct exOpts) exPts) 0 0 100 100 7 =
      some ((rangeIdx (initialRecs exPts) 0 0 100 100).map Entry.point) ∧
    rangeIdx (initialRecs exPts) 0 0 100 100 =
      (List.range exPts.length).filter fun j =>
        decide ((0 : ℚ) ≤ (exPts.getD j (0, 0)).1) &&
        decide ((exPts.getD j (0, 0)).1 ≤ 100) &&
        decide ((0 : ℚ) ≤ (exPts.getD j (0, 0)).2) &&
        decide ((exPts.getD j (0, 0)).2 ≤ 100) :=
  C6_above_max_zoom (construct exOpts) exPts 7 0 0 100 100 (by decide) (by decide)

end PointCluster
